import Mathlib

/-! Mojoc `ABufferReader`: a shallow embedding of `BufferReader.c`.

The C functions of `src/Engine/Toolkit/Utils/BufferReader.c` are embedded as
Lean functions over an explicit buffer (a list of bytes) and an explicit
`ArrayRange` value that is passed in and handed back.  The three flag setters of
`src/Engine/Graphics/Graphics.c` are embedded as functions on the record of the
flags.

Conventions of the embedding

* A byte of the buffer is a `Fin 256` bit pattern.  The plain `char` of the
  host may be signed or unsigned; the integer readers take that choice as the
  parameter `charSigned`.
* A read of the buffer outside the list is undefined behaviour in C; here it is
  the result `Fault.outOfBounds`.
* `ALog_A` (the fatal assertion behind `CheckRange`) is the result
  `Fault.rangeAssert`.
* The trace output of `ALog_D` is observational and is left out.
* Loops are structural recursions on a fuel counter and test the loop
  condition of the source as well; the top-level functions supply enough fuel
  (`fuel_suffices`), and running out of it is the separate result
  `Fault.outOfFuel`.
* Offsets are C `int`s.  The compound assignment `range->start += sizeof(T)`
  is computed in `size_t` and converted back to `int`, which wraps modulo
  `2 ^ 32`; it is modelled with `wrap32`.  The remaining offset arithmetic
  (`start + 1`, `start++`, `cmp++`, `end - start + 1`) is plain signed
  arithmetic, whose overflow is undefined in C and can only arise at offset
  `INT_MAX`; it is modelled on mathematical integers.
-/

namespace Mojoc

/-! ## Data model -/

/-- One byte of buffer memory, as a bit pattern. -/
abbrev Byte := Fin 256

/-- Modelled from the spec: the struct `ArrayRange` of `ArrayRange.h` is not
among the sources; by the spec and by its use in `BufferReader.c` it is an
inclusive pair of `int` offsets `[start, end]`.  The field `end` of the C struct
is spelled `end_`, `end` being a keyword. -/
structure ArrayRange where
  start : Int
  end_ : Int
deriving DecidableEq, Repr

/-- The ways a call can fail to return. -/
inductive Fault where
  | rangeAssert
  | outOfBounds
  | outOfFuel
deriving DecidableEq, Repr

deriving instance DecidableEq for Except

/-- The read `buffer[i]` of the byte at offset `i`. -/
def readAt (buffer : List Byte) (i : Int) : Except Fault Byte :=
  if 0 ≤ i then
    match buffer[i.toNat]? with
    | some b => .ok b
    | none => .error .outOfBounds
  else .error .outOfBounds

/-- Modelled from the spec: the macro `ALog_A` of `Log.h` is not among the
sources; by the spec it is a fatal assertion.  `CheckRange(tag)` asserts
`range->start <= range->end`. -/
def CheckRange (range : ArrayRange) : Except Fault Unit :=
  if range.start ≤ range.end_ then .ok () else .error .rangeAssert

/-! ## Machine arithmetic -/

/-- Conversion to `int8_t`: the value modulo `2 ^ 8`, in the signed range. -/
def wrap8 (x : Int) : Int := (x + 128) % 256 - 128

/-- Conversion to `int16_t`: the value modulo `2 ^ 16`, in the signed range. -/
def wrap16 (x : Int) : Int := (x + 32768) % 65536 - 32768

/-- Conversion to `int`/`int32_t`: the value modulo `2 ^ 32`, in the signed
range. -/
def wrap32 (x : Int) : Int := (x + 2147483648) % 4294967296 - 2147483648

/-- Conversion to `int64_t`: the value modulo `2 ^ 64`, in the signed range. -/
def wrap64 (x : Int) : Int :=
  (x + 9223372036854775808) % 18446744073709551616 - 9223372036854775808

/-- The value of a `char` holding the bit pattern `b`, promoted to `int`:
`b` itself when plain `char` is unsigned, sign-extended when it is signed. -/
def charVal (charSigned : Bool) (b : Byte) : Int :=
  if charSigned && decide (128 ≤ b.val) then (b.val : Int) - 256 else (b.val : Int)

/-- The expression `x & 0xff` on a two's-complement `int`: the low eight bits,
which is the residue of `x` modulo `256`. -/
def and0xff (x : Int) : Int := x % 256

/-- The shift `x << k` at type `int`: multiplication by `2 ^ k`, wrapped to 32
bits (what two's-complement hardware yields where C leaves the overflow
undefined). -/
def shl32 (x : Int) (k : Nat) : Int := wrap32 (x * 2 ^ k)

/-- The shift `x << k` at type `int64_t`, wrapped to 64 bits. -/
def shl64 (x : Int) (k : Nat) : Int := wrap64 (x * 2 ^ k)

/-- Addition at type `int`. -/
def add32 (x y : Int) : Int := wrap32 (x + y)

/-- Addition at type `int64_t`. -/
def add64 (x y : Int) : Int := wrap64 (x + y)

/-! ## Fixed-width integer readers -/

/-- The `ReadInt64` of the source: check, advance `start` by `sizeof(int64_t)`,
check again, then decode `data[0 .. 7]` with every byte masked by `0xff`. -/
def ReadInt64 (charSigned : Bool) (buffer : List Byte) (range : ArrayRange) :
    Except Fault (Int × ArrayRange) := do
  CheckRange range
  let pos := range.start
  let range := { range with start := wrap32 (range.start + 8) }
  CheckRange range
  let d0 ← readAt buffer (pos + 0)
  let d1 ← readAt buffer (pos + 1)
  let d2 ← readAt buffer (pos + 2)
  let d3 ← readAt buffer (pos + 3)
  let d4 ← readAt buffer (pos + 4)
  let d5 ← readAt buffer (pos + 5)
  let d6 ← readAt buffer (pos + 6)
  let d7 ← readAt buffer (pos + 7)
  let v :=
    add64 (add64 (add64 (add64 (add64 (add64 (add64
      (shl64 (and0xff (charVal charSigned d0)) 56)
      (shl64 (and0xff (charVal charSigned d1)) 48))
      (shl64 (and0xff (charVal charSigned d2)) 40))
      (shl64 (and0xff (charVal charSigned d3)) 32))
      (shl64 (and0xff (charVal charSigned d4)) 24))
      (shl32 (and0xff (charVal charSigned d5)) 16))
      (shl32 (and0xff (charVal charSigned d6)) 8))
      (shl32 (and0xff (charVal charSigned d7)) 0)
  pure (v, range)

/-- The `ReadInt32` of the source: the four bytes are read into `int`
variables before `start` is advanced and checked; they are not masked. -/
def ReadInt32 (charSigned : Bool) (buffer : List Byte) (range : ArrayRange) :
    Except Fault (Int × ArrayRange) := do
  CheckRange range
  let pos := range.start
  let ch1 := charVal charSigned (← readAt buffer (pos + 0))
  let ch2 := charVal charSigned (← readAt buffer (pos + 1))
  let ch3 := charVal charSigned (← readAt buffer (pos + 2))
  let ch4 := charVal charSigned (← readAt buffer (pos + 3))
  let range := { range with start := wrap32 (range.start + 4) }
  CheckRange range
  pure (add32 (add32 (add32 (shl32 ch1 24) (shl32 ch2 16)) (shl32 ch3 8)) (shl32 ch4 0),
    range)

/-- The `ReadInt16` of the source: the two bytes are read into `int16_t`
variables, shifted and added at type `int`, and the sum is converted to
`int16_t`. -/
def ReadInt16 (charSigned : Bool) (buffer : List Byte) (range : ArrayRange) :
    Except Fault (Int × ArrayRange) := do
  CheckRange range
  let pos := range.start
  let ch1 := wrap16 (charVal charSigned (← readAt buffer (pos + 0)))
  let ch2 := wrap16 (charVal charSigned (← readAt buffer (pos + 1)))
  let range := { range with start := wrap32 (range.start + 2) }
  CheckRange range
  pure (wrap16 (add32 (shl32 ch1 8) (shl32 ch2 0)), range)

/-- The `ReadInt8` of the source: `data[0]` converted to `int8_t`. -/
def ReadInt8 (charSigned : Bool) (buffer : List Byte) (range : ArrayRange) :
    Except Fault (Int × ArrayRange) := do
  CheckRange range
  let pos := range.start
  let range := { range with start := wrap32 (range.start + 1) }
  CheckRange range
  let d0 ← readAt buffer (pos + 0)
  pure (wrap8 (charVal charSigned d0), range)

/-! ## Line reader -/

/-- The `for (; start <= end; start++)` loop of `ReadLine`.  `outStart` is the
value written to `outLine->start` before the loop; the result is the pair of
`outLine` and `range` as the function leaves them.  Byte `10` is `'\n'` and byte
`13` is `'\r'`. -/
def ReadLine.loop (buffer : List Byte) (range : ArrayRange) (outStart end_ : Int) :
    Nat → Int → Except Fault (ArrayRange × ArrayRange)
  | 0, _ => .error .outOfFuel
  | fuel + 1, start =>
    if start ≤ end_ then do
      let c ← readAt buffer start
      if c = 10 then
        if start ≠ end_ then
          pure (⟨outStart, start⟩, { range with start := start + 1 })
        else
          pure (⟨outStart, start⟩, { range with start := end_ })
      else if c = 13 then
        if start ≠ end_ then do
          let start := start + 1
          let c2 ← readAt buffer start
          if c2 = 10 then
            if start ≠ end_ then
              pure (⟨outStart, start⟩, { range with start := start + 1 })
            else
              pure (⟨outStart, start⟩, { range with start := end_ })
          else
            pure (⟨outStart, start - 1⟩, { range with start := start })
        else
          pure (⟨outStart, start⟩, { range with start := end_ })
      else ReadLine.loop buffer range outStart end_ fuel (start + 1)
    else
      pure (⟨outStart, end_⟩, { range with end_ := end_ })

/-- The `ReadLine` of the source; it returns `(outLine, range)`. -/
def ReadLine (buffer : List Byte) (range : ArrayRange) :
    Except Fault (ArrayRange × ArrayRange) := do
  CheckRange range
  let start := range.start
  let end_ := range.end_
  ReadLine.loop buffer range start end_ ((end_ - start).toNat + 2) start

/-! ## Substring search -/

/-- The memory of the C string whose characters are `str`: the characters
followed by the terminating NUL. -/
def cstr (str : List Byte) : List Byte := str ++ [0]

/-- The `strlen` of libc on string memory: the number of bytes before the first
NUL. -/
def strlen : List Byte → Nat
  | [] => 0
  | c :: cs => if c = 0 then 0 else strlen cs + 1

/-- The `memcmp` of libc on `n` bytes at `s1 + p1` and `s2 + p2`: all `n` bytes
of both objects are read; the result is `0` when they agree and the difference
of the first two differing bytes otherwise. -/
def memcmp (s1 : List Byte) (p1 : Int) (s2 : List Byte) (p2 : Int) :
    Nat → Except Fault Int
  | 0 => pure 0
  | n + 1 => do
    let a ← readAt s1 p1
    let b ← readAt s2 p2
    let rest ← memcmp s1 (p1 + 1) s2 (p2 + 1) n
    pure (if a = b then rest else (a.val : Int) - (b.val : Int))

/-- How the inner `while (true)` loop of `TryFindStringByLoop` is left. -/
inductive InnerExit where
  | found (range : ArrayRange)
  | notFound
  | brk (pos : Int)
deriving DecidableEq, Repr

/-- The inner `while (true)` loop of `TryFindStringByLoop`: `found` is the
`return true` with the range it has written, `notFound` the
`goto NotFoundStr`, `brk` the `break` with `pos` reset to `0`. -/
def TryFindStringByLoop.inner (buffer : List Byte) (range : ArrayRange) (str : List Byte)
    (end_ : Int) : Nat → Int → Int → Except Fault InnerExit
  | 0, _, _ => .error .outOfFuel
  | fuel + 1, cmp, pos => do
    let pos := pos + 1
    let c ← readAt (cstr str) pos
    if c = 0 then
      if cmp ≠ end_ then
        pure (.found { range with start := cmp + 1 })
      else
        pure (.found { range with start := end_ })
    else
      let cmp := cmp + 1
      if cmp > end_ then
        pure .notFound
      else do
        let b ← readAt buffer cmp
        if b ≠ c then
          pure (.brk 0)
        else TryFindStringByLoop.inner buffer range str end_ fuel cmp pos

/-- The outer `for (; start <= end; start++)` loop of `TryFindStringByLoop`. -/
def TryFindStringByLoop.outer (buffer : List Byte) (range : ArrayRange) (str : List Byte)
    (end_ : Int) (first : Byte) : Nat → Int → Int → Except Fault (Bool × ArrayRange)
  | 0, _, _ => .error .outOfFuel
  | fuel + 1, start, pos =>
    if start ≤ end_ then do
      let b ← readAt buffer start
      if b = first then do
        let cmp := start
        match ← TryFindStringByLoop.inner buffer range str end_ (fuel + 1) cmp pos with
        | .found range' => pure (true, range')
        | .notFound => pure (false, range)
        | .brk pos' => TryFindStringByLoop.outer buffer range str end_ first fuel (start + 1) pos'
      else TryFindStringByLoop.outer buffer range str end_ first fuel (start + 1) pos
    else
      pure (false, range)

/-- The `TryFindStringByLoop` of the source; it returns the boolean and the
range as the function leaves it. -/
def TryFindStringByLoop (buffer : List Byte) (range : ArrayRange) (str : List Byte) :
    Except Fault (Bool × ArrayRange) := do
  CheckRange range
  let start := range.start
  let end_ := range.end_
  let pos := 0
  let first ← readAt (cstr str) 0
  TryFindStringByLoop.outer buffer range str end_ first ((end_ - start).toNat + 2) start pos

/-- The `while (len1 >= len2)` loop of `TryFindStringByMemcmp`; `bufferStart` is
the offset of the pointer of that name in `buffer`. -/
def TryFindStringByMemcmp.loop (buffer : List Byte) (range : ArrayRange) (str : List Byte)
    (len2 : Int) : Nat → Int → Int → Except Fault (Bool × ArrayRange)
  | 0, _, _ => .error .outOfFuel
  | fuel + 1, bufferStart, len1 =>
    if len1 ≥ len2 then do
      let c ← memcmp buffer bufferStart (cstr str) 0 len2.toNat
      if c = 0 then
        let range := { range with start := range.end_ - len1 + len2 + 1 }
        if range.start > range.end_ then
          pure (true, { range with start := range.end_ })
        else
          pure (true, range)
      else TryFindStringByMemcmp.loop buffer range str len2 fuel (bufferStart + 1) (len1 - 1)
    else
      pure (false, range)

/-- The `TryFindStringByMemcmp` of the source, which `ABufferReader` exposes as
`TryFindString`. -/
def TryFindStringByMemcmp (buffer : List Byte) (range : ArrayRange) (str : List Byte) :
    Except Fault (Bool × ArrayRange) := do
  CheckRange range
  let bufferStart := range.start
  let len1 := range.end_ - range.start + 1
  let len2 := (strlen (cstr str) : Int)
  TryFindStringByMemcmp.loop buffer range str len2 ((range.end_ - range.start).toNat + 2)
    bufferStart len1

/-- The bytes of an ASCII string literal. -/
def ascii (s : String) : List Byte := s.toList.map (fun c => Fin.ofNat c.toNat)

/-! ## Reference decoding (the words of the specification) -/

/-- Reference big-endian decode: the first byte is the most significant. -/
def beDecode (bs : List Byte) : Nat := bs.foldl (fun acc b => acc * 256 + b.val) 0

/-- The signed `w`-bit two's-complement integer whose bit pattern is `n`. -/
def toSigned (w : Nat) (n : Nat) : Int :=
  if n < 2 ^ (w - 1) then (n : Int) else (n : Int) - 2 ^ w

/-- The `n` bytes `buffer[start .. start + n - 1]`, when they all exist. -/
def bytesAt (buffer : List Byte) (start : Int) (n : Nat) : Option (List Byte) :=
  if 0 ≤ start ∧ start.toNat + n ≤ buffer.length then
    some ((buffer.drop start.toNat).take n)
  else none

/-- The pattern `str` occurs in `buffer` at offset `p`: the bytes
`buffer[p .. p + m - 1]`, with `m` the length of `str`, equal `str`. -/
def MatchAt (buffer str : List Byte) (p : Int) : Prop :=
  bytesAt buffer p str.length = some str

/-- The first `k` characters of the pattern agree with the buffer from offset `s`
on, read by read. -/
def Agree (buffer str : List Byte) (s : Int) (k : Nat) : Prop :=
  ∀ i : Nat, i < k → readAt buffer (s + (i : Int)) = readAt (cstr str) (i : Int)

/-- A search result that is not the fatal range assertion and that, when it is
the boolean `false`, hands back the range it was given. -/
def FalseKeeps (range : ArrayRange) (x : Except Fault (Bool × ArrayRange)) : Prop :=
  x ≠ .error .rangeAssert ∧ ∀ r', x = .ok (false, r') → r' = range

/-- The byte at offset `i` is a line-terminator byte, `'\n'` or `'\r'`. -/
def IsNewlineAt (buffer : List Byte) (i : Int) : Prop :=
  readAt buffer i = .ok 10 ∨ readAt buffer i = .ok 13

/-- The bytes of an output range read as the inclusive interval
`buffer[out.start .. out.end]`. -/
def lineBytes (buffer : List Byte) (out : ArrayRange) : Option (List Byte) :=
  bytesAt buffer out.start (out.end_ - out.start + 1).toNat

/-- Successive `ReadLine` calls on one range object: the output ranges of `n`
calls in call order, and the range after the last call. -/
def ReadLines (buffer : List Byte) : Nat → ArrayRange →
    Except Fault (List ArrayRange × ArrayRange)
  | 0, range => pure ([], range)
  | n + 1, range => do
    let (out, range) ← ReadLine buffer range
    let (outs, range) ← ReadLines buffer n range
    pure (out :: outs, range)

/-- The three line terminators of the specification. -/
inductive Terminator where
  | lf
  | crlf
  | cr
deriving DecidableEq, Repr

/-- The bytes of a terminator: `\n`, `\r\n`, `\r`. -/
def Terminator.bytes : Terminator → List Byte
  | .lf => [10]
  | .crlf => [13, 10]
  | .cr => [13]

/-- The buffer built from lines, each followed by its terminator. -/
def joinLines : List (List Byte × Terminator) → List Byte
  | [] => []
  | seg :: rest => seg.1 ++ seg.2.bytes ++ joinLines rest

/-- A line that contains neither `'\n'` nor `'\r'`. -/
def NoNewline (l : List Byte) : Prop := ∀ b ∈ l, b ≠ 10 ∧ b ≠ 13

/-- No bare `'\r'` terminator is directly followed by a `'\n'` byte (which
happens when the next line is empty and ends in `'\n'`); `tail` is what follows
the last terminated line. -/
def CrNotBeforeLf (tail : List Byte) : List (List Byte × Terminator) → Prop
  | [] => True
  | seg :: rest =>
    (seg.2 = .cr → (joinLines rest ++ tail).head? ≠ some 10) ∧ CrNotBeforeLf tail rest

/-- What C12 says of the result `x` of a reader of width `N`: it is not the
fatal range assertion; if it is a value, the range left is `[start + N, end]`;
and it is a value when the `N` bytes at `start` lie in the buffer. -/
def AdvancesBy (N : Int) (buffer : List Byte) (range : ArrayRange)
    (x : Except Fault (Int × ArrayRange)) : Prop :=
  x ≠ .error .rangeAssert ∧
    (∀ v r', x = .ok (v, r') → r' = ⟨range.start + N, range.end_⟩) ∧
    (0 ≤ range.start → range.start + N ≤ (buffer.length : Int) →
      ∃ v, x = .ok (v, ⟨range.start + N, range.end_⟩))

/-- The range invariant of C13 for a result `x` that carries the range a call
leaves: when the call returns, the old `start` is at most the new `start`, the
new `start` is at most the new `end`, and `end` is unchanged. -/
def KeepsRange {α : Type} (range : ArrayRange) (x : Except Fault (α × ArrayRange)) : Prop :=
  ∀ a r', x = .ok (a, r') →
    range.start ≤ r'.start ∧ r'.start ≤ r'.end_ ∧ r'.end_ = range.end_

/-! ## Graphics flags (`Graphics.c`) -/

/-- Modelled from the spec: the struct `AGLInfo` of `GLInfo.h` is not among the
sources; `Graphics.c` reads its capability flag `isSupportVAO` and compares its
`float` field `version` with `2.0f`.  The field `versionAbove2` is the outcome
of the comparison `version > 2.0f`. -/
structure AGLInfo where
  isSupportVAO : Bool
  versionAbove2 : Bool
deriving DecidableEq, Repr

/-- Modelled from the spec: the struct `AGraphics` of `Graphics.h` is not among
the sources; `Graphics.c` writes its three flags. -/
structure AGraphics where
  isUseVBO : Bool
  isUseVAO : Bool
  isUseMapBuffer : Bool
deriving DecidableEq, Repr

/-- The `Init` of `Graphics.c`, after the `Init` calls of its collaborators: the
three flags are set to `false`. -/
def Init (g : AGraphics) : AGraphics :=
  { g with isUseVBO := false, isUseVAO := false, isUseMapBuffer := false }

/-- The `SetUseVAO` of `Graphics.c`. -/
def SetUseVAO (gl : AGLInfo) (g : AGraphics) (isUseVAO : Bool) : AGraphics :=
  if isUseVAO && gl.isSupportVAO then
    { g with isUseVAO := true, isUseVBO := true }
  else
    { g with isUseVAO := false, isUseVBO := false }

/-- The `SetUseMapBuffer` of `Graphics.c`. -/
def SetUseMapBuffer (gl : AGLInfo) (g : AGraphics) (isUseMapBuffer : Bool) : AGraphics :=
  if isUseMapBuffer && gl.versionAbove2 then
    { g with isUseMapBuffer := true }
  else
    { g with isUseMapBuffer := false }

/-- A call of one of the two setters. -/
inductive GraphicsCall where
  | setUseVAO (b : Bool)
  | setUseMapBuffer (b : Bool)
deriving DecidableEq, Repr

/-- The state after one setter call. -/
def GraphicsCall.apply (gl : AGLInfo) (g : AGraphics) : GraphicsCall → AGraphics
  | .setUseVAO b => SetUseVAO gl g b
  | .setUseMapBuffer b => SetUseMapBuffer gl g b

/-- The state reached from `Init` through a sequence of setter calls. -/
def graphicsAfter (gl : AGLInfo) (g0 : AGraphics) (calls : List GraphicsCall) : AGraphics :=
  calls.foldl (GraphicsCall.apply gl) (Init g0)

/-! ## Basic facts -/

theorem bind_eq_ok {ε α β : Type} {x : Except ε α} {f : α → Except ε β} {b : β} :
    (x >>= f) = .ok b ↔ ∃ a, x = .ok a ∧ f a = .ok b := by
  cases x with
  | error e => simp [bind, Except.bind]
  | ok a => simp [bind, Except.bind]

theorem CheckRange_eq_ok {range : ArrayRange} {u : Unit} :
    CheckRange range = .ok u ↔ range.start ≤ range.end_ := by
  unfold CheckRange
  split <;> simp_all

theorem readAt_eq_ok {buffer : List Byte} {i : Int} {b : Byte} :
    readAt buffer i = .ok b ↔ 0 ≤ i ∧ buffer[i.toNat]? = some b := by
  unfold readAt
  split
  · rename_i h
    cases hb : buffer[i.toNat]? with
    | none => simp [h]
    | some c => simp [h]
  · rename_i h
    simp [h]

theorem and0xff_charVal (cs : Bool) (b : Byte) : and0xff (charVal cs b) = (b.val : Int) := by
  unfold and0xff charVal
  have := b.isLt
  split <;> omega

theorem wrap64_of_range {x : Int} (h1 : -9223372036854775808 ≤ x)
    (h2 : x < 9223372036854775808) : wrap64 x = x := by
  unfold wrap64; omega

theorem wrap32_of_range {x : Int} (h1 : -2147483648 ≤ x) (h2 : x < 2147483648) :
    wrap32 x = x := by
  unfold wrap32; omega

theorem wrap16_of_range {x : Int} (h1 : -32768 ≤ x) (h2 : x < 32768) : wrap16 x = x := by
  unfold wrap16; omega

theorem wrap8_of_range {x : Int} (h1 : -128 ≤ x) (h2 : x < 128) : wrap8 x = x := by
  unfold wrap8; omega

theorem wrap64_add_wrap64_left (a b : Int) : wrap64 (wrap64 a + b) = wrap64 (a + b) := by
  unfold wrap64; omega

theorem wrap64_add_wrap64_right (a b : Int) : wrap64 (a + wrap64 b) = wrap64 (a + b) := by
  unfold wrap64; omega

theorem wrap32_add_wrap32_left (a b : Int) : wrap32 (wrap32 a + b) = wrap32 (a + b) := by
  unfold wrap32; omega

theorem wrap32_add_wrap32_right (a b : Int) : wrap32 (a + wrap32 b) = wrap32 (a + b) := by
  unfold wrap32; omega

theorem wrap64_natCast (n : Nat) (h : n < 18446744073709551616) :
    wrap64 (n : Int) = toSigned 64 n := by
  unfold wrap64 toSigned
  norm_num
  split <;> omega

theorem beDecode8_lt (d0 d1 d2 d3 d4 d5 d6 d7 : Byte) :
    beDecode [d0, d1, d2, d3, d4, d5, d6, d7] < 18446744073709551616 := by
  have e0 := d0.isLt
  have e1 := d1.isLt
  have e2 := d2.isLt
  have e3 := d3.isLt
  have e4 := d4.isLt
  have e5 := d5.isLt
  have e6 := d6.isLt
  have e7 := d7.isLt
  simp only [beDecode, List.foldl]
  omega

theorem beDecode8_cast (d0 d1 d2 d3 d4 d5 d6 d7 : Byte) :
    ((beDecode [d0, d1, d2, d3, d4, d5, d6, d7] : Nat) : Int) =
      (d0.val : Int) * 72057594037927936 + (d1.val : Int) * 281474976710656 +
      (d2.val : Int) * 1099511627776 + (d3.val : Int) * 4294967296 +
      (d4.val : Int) * 16777216 + (d5.val : Int) * 65536 + (d6.val : Int) * 256 +
      (d7.val : Int) := by
  simp only [beDecode, List.foldl]
  push_cast
  ring

/-- The decoded value of `ReadInt64` for masked bytes `d0 .. d7`. -/
theorem decode64_eq (d0 d1 d2 d3 d4 d5 d6 d7 : Byte) :
    add64 (add64 (add64 (add64 (add64 (add64 (add64
      (shl64 (d0.val : Int) 56) (shl64 (d1.val : Int) 48)) (shl64 (d2.val : Int) 40))
      (shl64 (d3.val : Int) 32)) (shl64 (d4.val : Int) 24)) (shl32 (d5.val : Int) 16))
      (shl32 (d6.val : Int) 8)) (shl32 (d7.val : Int) 0)
      = toSigned 64 (beDecode [d0, d1, d2, d3, d4, d5, d6, d7]) := by
  have e5 := d5.isLt
  have e6 := d6.isLt
  have e7 := d7.isLt
  have s5 : shl32 (d5.val : Int) 16 = (d5.val : Int) * 65536 := by
    unfold shl32; norm_num; exact wrap32_of_range (by omega) (by omega)
  have s6 : shl32 (d6.val : Int) 8 = (d6.val : Int) * 256 := by
    unfold shl32; norm_num; exact wrap32_of_range (by omega) (by omega)
  have s7 : shl32 (d7.val : Int) 0 = (d7.val : Int) := by
    unfold shl32; norm_num; exact wrap32_of_range (by omega) (by omega)
  rw [s5, s6, s7]
  simp only [add64, shl64, wrap64_add_wrap64_left, wrap64_add_wrap64_right]
  rw [← wrap64_natCast _ (beDecode8_lt d0 d1 d2 d3 d4 d5 d6 d7), beDecode8_cast]
  norm_num

theorem ReadInt64_ok_inv {cs : Bool} {buffer : List Byte} {range : ArrayRange}
    {v : Int} {range' : ArrayRange} (h : ReadInt64 cs buffer range = .ok (v, range')) :
    ∃ d0 d1 d2 d3 d4 d5 d6 d7 : Byte,
      readAt buffer (range.start + 0) = .ok d0 ∧ readAt buffer (range.start + 1) = .ok d1 ∧
      readAt buffer (range.start + 2) = .ok d2 ∧ readAt buffer (range.start + 3) = .ok d3 ∧
      readAt buffer (range.start + 4) = .ok d4 ∧ readAt buffer (range.start + 5) = .ok d5 ∧
      readAt buffer (range.start + 6) = .ok d6 ∧ readAt buffer (range.start + 7) = .ok d7 ∧
      v = toSigned 64 (beDecode [d0, d1, d2, d3, d4, d5, d6, d7]) := by
  unfold ReadInt64 at h
  simp only [bind_eq_ok, pure, Except.pure, Except.ok.injEq, Prod.mk.injEq] at h
  obtain ⟨_, _, _, _, d0, h0, d1, h1, d2, h2, d3, h3, d4, h4, d5, h5, d6, h6, d7, h7, hv, _⟩ := h
  refine ⟨d0, d1, d2, d3, d4, d5, d6, d7, h0, h1, h2, h3, h4, h5, h6, h7, ?_⟩
  rw [← hv]
  simp only [and0xff_charVal]
  exact decode64_eq d0 d1 d2 d3 d4 d5 d6 d7

theorem take_drop_succ {buffer : List Byte} {n m : Nat} {d : Byte}
    (h : buffer[n]? = some d) :
    (buffer.drop n).take (m + 1) = d :: (buffer.drop (n + 1)).take m := by
  obtain ⟨hlt, rfl⟩ := List.getElem?_eq_some.1 h
  rw [List.drop_eq_getElem_cons hlt, List.take_succ_cons]

theorem readAt_add_ok {buffer : List Byte} {s : Int} {k : Nat} {d : Byte} (hs : 0 ≤ s)
    (h : readAt buffer (s + (k : Int)) = .ok d) : buffer[s.toNat + k]? = some d := by
  have h2 := (readAt_eq_ok.1 h).2
  have e : (s + (k : Int)).toNat = s.toNat + k := by omega
  rw [e] at h2
  exact h2

theorem readAt_inBounds (buffer : List Byte) (i : Int) (h0 : 0 ≤ i)
    (h1 : i < (buffer.length : Int)) : ∃ b, readAt buffer i = .ok b := by
  have hlt : i.toNat < buffer.length := by omega
  refine ⟨buffer[i.toNat], ?_⟩
  rw [readAt_eq_ok]
  exact ⟨h0, List.getElem?_eq_getElem hlt⟩

theorem CheckRange_ok {range : ArrayRange} (h : range.start ≤ range.end_) :
    CheckRange range = .ok () := by
  unfold CheckRange
  rw [if_pos h]

/-! ## Facts on strings and `memcmp` -/

theorem readAt_natCast {buffer : List Byte} {i : Nat} (h : i < buffer.length) :
    readAt buffer (i : Int) = .ok buffer[i] := by
  rw [readAt_eq_ok]
  exact ⟨by omega, by simp [List.getElem?_eq_getElem h]⟩

theorem readAt_cstr_lt {str : List Byte} {i : Nat} (h : i < str.length) :
    readAt (cstr str) (i : Int) = .ok str[i] := by
  have h2 : i < (cstr str).length := by simp [cstr]; omega
  rw [readAt_natCast h2]
  simp [cstr, List.getElem_append_left, h]

theorem readAt_cstr_length (str : List Byte) :
    readAt (cstr str) (str.length : Int) = .ok 0 := by
  have h2 : str.length < (cstr str).length := by simp [cstr]
  rw [readAt_natCast h2]
  simp [cstr]

theorem strlen_cstr {str : List Byte} (h : ∀ c ∈ str, c ≠ 0) :
    strlen (cstr str) = str.length := by
  induction str with
  | nil => simp [cstr, strlen]
  | cons c cs ih =>
    have hc : c ≠ 0 := h c (by simp)
    have ih2 := ih (fun d hd => h d (by simp [hd]))
    simp only [cstr, List.cons_append, strlen, hc, if_false, List.length_cons] at ih2 ⊢
    exact congrArg (fun x => x + 1) ih2

theorem memcmp_spec (s1 s2 : List Byte) : ∀ (n : Nat) (p1 p2 : Int),
    0 ≤ p1 → p1 + (n : Int) ≤ (s1.length : Int) → 0 ≤ p2 → p2 + (n : Int) ≤ (s2.length : Int) →
    ∃ c, memcmp s1 p1 s2 p2 n = .ok c ∧
      (c = 0 ↔ ∀ i : Nat, i < n → readAt s1 (p1 + (i : Int)) = readAt s2 (p2 + (i : Int))) := by
  intro n
  induction n with
  | zero =>
    intro p1 p2 _ _ _ _
    exact ⟨0, rfl, by simp⟩
  | succ n ih =>
    intro p1 p2 h1 h1' h2 h2'
    obtain ⟨a, ha⟩ := readAt_inBounds s1 p1 h1 (by omega)
    obtain ⟨b, hb⟩ := readAt_inBounds s2 p2 h2 (by omega)
    obtain ⟨rest, hrest, hiff⟩ := ih (p1 + 1) (p2 + 1) (by omega) (by omega) (by omega) (by omega)
    refine ⟨if a = b then rest else (a.val : Int) - (b.val : Int), ?_, ?_⟩
    · simp only [memcmp, ha, hb, hrest, bind, Except.bind, pure, Except.pure]
    · by_cases hab : a = b
      · rw [if_pos hab, hiff]
        constructor
        · intro h i hi
          cases i with
          | zero => simp [ha, hb, hab]
          | succ j =>
            have := h j (by omega)
            have e1 : p1 + ((j + 1 : Nat) : Int) = p1 + 1 + (j : Int) := by omega
            have e2 : p2 + ((j + 1 : Nat) : Int) = p2 + 1 + (j : Int) := by omega
            rw [e1, e2]
            exact this
        · intro h i hi
          have := h (i + 1) (by omega)
          have e1 : p1 + ((i + 1 : Nat) : Int) = p1 + 1 + (i : Int) := by omega
          have e2 : p2 + ((i + 1 : Nat) : Int) = p2 + 1 + (i : Int) := by omega
          rw [e1, e2] at this
          exact this
      · rw [if_neg hab]
        have hv : a.val ≠ b.val := fun h => hab (Fin.ext h)
        constructor
        · intro h
          omega
        · intro h
          have := h 0 (by omega)
          simp [ha, hb] at this
          exact absurd this hab

theorem matchAt_iff_agree {buffer str : List Byte} {p : Int} (hne : str ≠ []) (hp : 0 ≤ p) :
    MatchAt buffer str p ↔ Agree buffer str p str.length := by
  have hm : 0 < str.length := List.length_pos.2 hne
  unfold MatchAt bytesAt Agree
  constructor
  · intro h i hi
    split at h
    · rename_i hc
      have h' : List.take str.length (List.drop p.toNat buffer) = str := by simpa using h
      have hlt : p.toNat + i < buffer.length := by omega
      have e : p + (i : Int) = ((p.toNat + i : Nat) : Int) := by omega
      rw [e, readAt_natCast hlt, readAt_cstr_lt hi]
      have h3 : (List.take str.length (List.drop p.toNat buffer))[i]? = str[i]? := by rw [h']
      rw [List.getElem?_take_of_lt hi, List.getElem?_drop, List.getElem?_eq_getElem hlt,
        List.getElem?_eq_getElem hi] at h3
      simpa using h3
    · simp at h
  · intro h
    have hlast := h (str.length - 1) (by omega)
    rw [readAt_cstr_lt (by omega)] at hlast
    have hb := (readAt_eq_ok.1 hlast).2
    have hlt := (List.getElem?_eq_some.1 hb).1
    have hc : 0 ≤ p ∧ p.toNat + str.length ≤ buffer.length := ⟨hp, by omega⟩
    rw [if_pos hc]
    congr 1
    apply List.ext_getElem?
    intro i
    by_cases hi : i < str.length
    · have hlt2 : p.toNat + i < buffer.length := by omega
      have e : p + (i : Int) = ((p.toNat + i : Nat) : Int) := by omega
      have := h i hi
      rw [e, readAt_natCast hlt2, readAt_cstr_lt hi] at this
      rw [List.getElem?_take_of_lt hi, List.getElem?_drop, List.getElem?_eq_getElem hlt2,
        List.getElem?_eq_getElem hi]
      simpa using this
    · have h1 : (List.take str.length (List.drop p.toNat buffer)).length ≤ i := by
        simp; omega
      rw [List.getElem?_eq_none h1, List.getElem?_eq_none (by omega)]

theorem memcmp_cstr_spec (buffer : List Byte) {str : List Byte} {p : Int} (hne : str ≠ []) (hp : 0 ≤ p)
    (hfit : p + (str.length : Int) ≤ (buffer.length : Int)) :
    ∃ c, memcmp buffer p (cstr str) 0 str.length = .ok c ∧ (c = 0 ↔ MatchAt buffer str p) := by
  obtain ⟨c, hc, hiff⟩ := memcmp_spec buffer (cstr str) str.length p 0 hp hfit (by omega)
    (by simp [cstr])
  refine ⟨c, hc, ?_⟩
  rw [hiff, matchAt_iff_agree hne hp]
  unfold Agree
  simp only [zero_add]

/-! ## The block-compare search -/

theorem memcmpLoop_notFound {buffer str : List Byte} {range : ArrayRange} (hne : str ≠ [])
    (hend : range.end_ < (buffer.length : Int)) :
    ∀ (fuel : Nat) (p : Int), 0 ≤ p → p ≤ range.end_ + 1 → range.end_ - p + 2 ≤ (fuel : Int) →
      (∀ q, p ≤ q → q + (str.length : Int) - 1 ≤ range.end_ → ¬ MatchAt buffer str q) →
      TryFindStringByMemcmp.loop buffer range str (str.length : Int) fuel p
        (range.end_ - p + 1) = .ok (false, range) := by
  have hm : 0 < str.length := List.length_pos.2 hne
  intro fuel
  induction fuel with
  | zero =>
    intro p _ h1 h2
    omega
  | succ fuel ih =>
    intro p hp0 hp1 hf hno
    unfold TryFindStringByMemcmp.loop
    by_cases hge : range.end_ - p + 1 ≥ (str.length : Int)
    · rw [if_pos hge]
      obtain ⟨c, hc, hiff⟩ := memcmp_cstr_spec buffer hne hp0 (by omega)
      have hc0 : c ≠ 0 := fun h => hno p le_rfl (by omega) (hiff.1 h)
      simp only [Int.toNat_ofNat, hc, bind, Except.bind, hc0, if_false]
      have e : range.end_ - p + 1 - 1 = range.end_ - (p + 1) + 1 := by omega
      rw [e]
      exact ih (p + 1) (by omega) (by omega) (by omega) (fun q hq => hno q (by omega))
    · rw [if_neg hge]
      rfl

theorem memcmpLoop_found {buffer str : List Byte} {range : ArrayRange} (hne : str ≠ [])
    (hend : range.end_ < (buffer.length : Int)) (q0 : Int)
    (hfit : q0 + (str.length : Int) - 1 ≤ range.end_) (hmatch : MatchAt buffer str q0) :
    ∀ (fuel : Nat) (p : Int), 0 ≤ p → p ≤ q0 → range.end_ - p + 2 ≤ (fuel : Int) →
      (∀ q, p ≤ q → q < q0 → ¬ MatchAt buffer str q) →
      TryFindStringByMemcmp.loop buffer range str (str.length : Int) fuel p
        (range.end_ - p + 1) =
        .ok (true, ⟨if q0 + (str.length : Int) ≤ range.end_ then q0 + (str.length : Int)
          else range.end_, range.end_⟩) := by
  have hm : 0 < str.length := List.length_pos.2 hne
  intro fuel
  induction fuel with
  | zero =>
    intro p _ h1 h2
    omega
  | succ fuel ih =>
    intro p hp0 hp1 hf hno
    unfold TryFindStringByMemcmp.loop
    have hge : range.end_ - p + 1 ≥ (str.length : Int) := by omega
    rw [if_pos hge]
    obtain ⟨c, hc, hiff⟩ := memcmp_cstr_spec buffer hne hp0 (by omega)
    by_cases hpq : p = q0
    · subst hpq
      have hc0 : c = 0 := hiff.2 hmatch
      simp only [Int.toNat_ofNat, hc, bind, Except.bind, hc0, if_true, pure, Except.pure]
      by_cases hle : p + (str.length : Int) ≤ range.end_
      · have h1 : ¬ (range.end_ - (range.end_ - p + 1) + (str.length : Int) + 1 > range.end_) := by
          omega
        rw [if_neg h1, if_pos hle]
        congr 3
        omega
      · have h1 : range.end_ - (range.end_ - p + 1) + (str.length : Int) + 1 > range.end_ := by
          omega
        rw [if_pos h1, if_neg hle]
    · have hc0 : c ≠ 0 := fun h => hno p le_rfl (by omega) (hiff.1 h)
      simp only [Int.toNat_ofNat, hc, bind, Except.bind, hc0, if_false]
      have e : range.end_ - p + 1 - 1 = range.end_ - (p + 1) + 1 := by omega
      rw [e]
      exact ih (p + 1) (by omega) (by omega) (by omega) (fun q hq => hno q (by omega))

/-! ## The character-compare search -/

theorem agree_succ {buffer str : List Byte} {s : Int} {k : Nat} (h : Agree buffer str s k)
    (hk : readAt buffer (s + (k : Int)) = readAt (cstr str) (k : Int)) :
    Agree buffer str s (k + 1) := by
  intro i hi
  by_cases h2 : i < k
  · exact h i h2
  · have e : i = k := by omega
    subst e
    exact hk

theorem inner_spec {buffer str : List Byte} {range : ArrayRange} (hne : str ≠ [])
    (hnul : ∀ c ∈ str, c ≠ 0) (hend : range.end_ < (buffer.length : Int)) (s : Int)
    (hs : 0 ≤ s) :
    ∀ (fuel pos : Nat), pos < str.length → s + (pos : Int) ≤ range.end_ →
      Agree buffer str s (pos + 1) → range.end_ - (s + (pos : Int)) + 1 ≤ (fuel : Int) →
      (TryFindStringByLoop.inner buffer range str range.end_ fuel (s + (pos : Int)) (pos : Int)
          = .ok (.found ⟨if s + (str.length : Int) ≤ range.end_ then s + (str.length : Int)
              else range.end_, range.end_⟩) ∧
        MatchAt buffer str s ∧ s + (str.length : Int) - 1 ≤ range.end_) ∨
      (TryFindStringByLoop.inner buffer range str range.end_ fuel (s + (pos : Int)) (pos : Int)
          = .ok .notFound ∧ range.end_ < s + (str.length : Int) - 1) ∨
      (TryFindStringByLoop.inner buffer range str range.end_ fuel (s + (pos : Int)) (pos : Int)
          = .ok (.brk 0) ∧ ¬ MatchAt buffer str s) := by
  intro fuel
  induction fuel with
  | zero =>
    intro pos _ h1 _ h2
    omega
  | succ fuel ih =>
    intro pos hpos hle hag hf
    have ecast : (pos : Int) + 1 = ((pos + 1 : Nat) : Int) := by push_cast; ring
    unfold TryFindStringByLoop.inner
    by_cases hlast : pos + 1 = str.length
    · -- the pattern is exhausted: `str[pos] == '\0'`
      have hc : readAt (cstr str) ((pos : Int) + 1) = .ok 0 := by
        rw [ecast, hlast]
        exact readAt_cstr_length str
      have hm : MatchAt buffer str s := by
        rw [matchAt_iff_agree hne hs, ← hlast]
        exact hag
      have hlen : (str.length : Int) = (pos : Int) + 1 := by omega
      left
      refine ⟨?_, hm, by omega⟩
      simp only [hc, bind, Except.bind, if_true, pure, Except.pure]
      by_cases hce : s + (pos : Int) = range.end_
      · have h1 : ¬ (s + (str.length : Int) ≤ range.end_) := by omega
        simp only [hce, ne_eq, not_true_eq_false, if_false]
        rw [← hce, if_neg (by omega)]
      · have h1 : s + (str.length : Int) ≤ range.end_ := by omega
        simp only [ne_eq, hce, not_false_eq_true, if_true]
        rw [if_pos h1]
        congr 3
        omega
    · have hlt : pos + 1 < str.length := by omega
      have hc : readAt (cstr str) ((pos : Int) + 1) = .ok str[pos + 1] := by
        rw [ecast]
        exact readAt_cstr_lt hlt
      have hcne : str[pos + 1] ≠ 0 := hnul _ (List.getElem_mem _)
      simp only [hc, bind, Except.bind, hcne, if_false]
      by_cases hover : s + (pos : Int) + 1 > range.end_
      · right
        left
        refine ⟨?_, by omega⟩
        simp only [hover, if_true, pure, Except.pure]
      · obtain ⟨b, hb⟩ := readAt_inBounds buffer (s + (pos : Int) + 1)
          (by omega) (by omega)
        simp only [hover, if_false, hb]
        by_cases hbc : b = str[pos + 1]
        · have e2 : s + (pos : Int) + 1 = s + ((pos + 1 : Nat) : Int) := by omega
          have hag2 : Agree buffer str s (pos + 1 + 1) := by
            apply agree_succ hag
            rw [← e2, hb, readAt_cstr_lt hlt, hbc]
          have := ih (pos + 1) hlt (by omega) hag2 (by omega)
          simp only [ne_eq, hbc, not_true_eq_false, if_false]
          rw [e2, ecast]
          exact this
        · right
          right
          refine ⟨?_, ?_⟩
          · simp only [ne_eq, hbc, not_false_eq_true, if_true, pure, Except.pure]
          · intro hm
            rw [matchAt_iff_agree hne hs] at hm
            have := hm (pos + 1) hlt
            have e2 : s + ((pos + 1 : Nat) : Int) = s + (pos : Int) + 1 := by omega
            rw [e2, hb, readAt_cstr_lt hlt] at this
            exact hbc (by simpa using this)

theorem inner_start {buffer str : List Byte} {range : ArrayRange} (hne : str ≠ [])
    (hnul : ∀ c ∈ str, c ≠ 0) (hend : range.end_ < (buffer.length : Int)) {p : Int}
    (hp : 0 ≤ p) (hle : p ≤ range.end_) {first : Byte}
    (hfirst : readAt (cstr str) 0 = .ok first) (hb : readAt buffer p = .ok first)
    (fuel : Nat) (hf : range.end_ - p + 1 ≤ (fuel : Int)) :
    (TryFindStringByLoop.inner buffer range str range.end_ fuel p 0
        = .ok (.found ⟨if p + (str.length : Int) ≤ range.end_ then p + (str.length : Int)
            else range.end_, range.end_⟩) ∧
      MatchAt buffer str p ∧ p + (str.length : Int) - 1 ≤ range.end_) ∨
    (TryFindStringByLoop.inner buffer range str range.end_ fuel p 0
        = .ok .notFound ∧ range.end_ < p + (str.length : Int) - 1) ∨
    (TryFindStringByLoop.inner buffer range str range.end_ fuel p 0
        = .ok (.brk 0) ∧ ¬ MatchAt buffer str p) := by
  have hm : 0 < str.length := List.length_pos.2 hne
  have hag : Agree buffer str p (0 + 1) := by
    intro i hi
    have e : i = 0 := by omega
    subst e
    simp only [Nat.cast_zero, add_zero, hb, hfirst]
  have := inner_spec hne hnul hend p hp fuel 0 hm (by simpa using hle) hag (by simpa using hf)
  simpa using this

theorem outer_notFound {buffer str : List Byte} {range : ArrayRange} (hne : str ≠ [])
    (hnul : ∀ c ∈ str, c ≠ 0) (hend : range.end_ < (buffer.length : Int)) {first : Byte}
    (hfirst : readAt (cstr str) 0 = .ok first) :
    ∀ (fuel : Nat) (p : Int), 0 ≤ p → p ≤ range.end_ + 1 → range.end_ - p + 2 ≤ (fuel : Int) →
      (∀ q, p ≤ q → q + (str.length : Int) - 1 ≤ range.end_ → ¬ MatchAt buffer str q) →
      TryFindStringByLoop.outer buffer range str range.end_ first fuel p 0
        = .ok (false, range) := by
  intro fuel
  induction fuel with
  | zero =>
    intro p _ h1 h2
    omega
  | succ fuel ih =>
    intro p hp0 hp1 hf hno
    unfold TryFindStringByLoop.outer
    by_cases hle : p ≤ range.end_
    · rw [if_pos hle]
      obtain ⟨b, hb⟩ := readAt_inBounds buffer p hp0 (by omega)
      have hrec := ih (p + 1) (by omega) (by omega) (by omega) (fun q hq => hno q (by omega))
      by_cases hbf : b = first
      · subst hbf
        rcases inner_start hne hnul hend hp0 hle hfirst hb (fuel + 1)
          (by push_cast; omega) with ⟨_, hm, hfit⟩ | ⟨hin, _⟩ | ⟨hin, _⟩
        · exact absurd hm (hno p le_rfl hfit)
        · simp only [hb, bind, Except.bind, if_true, hin, pure, Except.pure]
        · simp only [hb, bind, Except.bind, if_true, hin]
          exact hrec
      · simp only [hb, bind, Except.bind, hbf, if_false]
        exact hrec
    · rw [if_neg hle]
      rfl

theorem outer_found {buffer str : List Byte} {range : ArrayRange} (hne : str ≠ [])
    (hnul : ∀ c ∈ str, c ≠ 0) (hend : range.end_ < (buffer.length : Int)) {first : Byte}
    (hfirst : readAt (cstr str) 0 = .ok first) (q0 : Int)
    (hfit : q0 + (str.length : Int) - 1 ≤ range.end_) (hmatch : MatchAt buffer str q0) :
    ∀ (fuel : Nat) (p : Int), 0 ≤ p → p ≤ q0 → range.end_ - p + 2 ≤ (fuel : Int) →
      (∀ q, p ≤ q → q < q0 → ¬ MatchAt buffer str q) →
      TryFindStringByLoop.outer buffer range str range.end_ first fuel p 0 =
        .ok (true, ⟨if q0 + (str.length : Int) ≤ range.end_ then q0 + (str.length : Int)
          else range.end_, range.end_⟩) := by
  have hm : 0 < str.length := List.length_pos.2 hne
  intro fuel
  induction fuel with
  | zero =>
    intro p _ h1 h2
    omega
  | succ fuel ih =>
    intro p hp0 hp1 hf hno
    unfold TryFindStringByLoop.outer
    have hle : p ≤ range.end_ := by omega
    rw [if_pos hle]
    obtain ⟨b, hb⟩ := readAt_inBounds buffer p hp0 (by omega)
    by_cases hpq : p = q0
    · subst hpq
      have hbf : b = first := by
        have hag := (matchAt_iff_agree hne hp0).1 hmatch 0 hm
        simp only [Nat.cast_zero, add_zero, hb, hfirst] at hag
        exact Except.ok.inj hag
      subst hbf
      rcases inner_start hne hnul hend hp0 hle hfirst hb (fuel + 1)
        (by push_cast; omega) with ⟨hin, _, _⟩ | ⟨_, hover⟩ | ⟨_, hnm⟩
      · simp only [hb, bind, Except.bind, if_true, hin, pure, Except.pure]
      · omega
      · exact absurd hmatch hnm
    · have hrec := ih (p + 1) (by omega) (by omega) (by omega) (fun q hq => hno q (by omega))
      by_cases hbf : b = first
      · subst hbf
        rcases inner_start hne hnul hend hp0 hle hfirst hb (fuel + 1)
          (by push_cast; omega) with ⟨_, hm2, _⟩ | ⟨_, hover⟩ | ⟨hin, _⟩
        · exact absurd hm2 (hno p le_rfl (by omega))
        · omega
        · simp only [hb, bind, Except.bind, if_true, hin]
          exact hrec
      · simp only [hb, bind, Except.bind, hbf, if_false]
        exact hrec

/-! ## Both searches against the first occurrence -/

theorem TryFindStringByMemcmp_found {buffer str : List Byte} {range : ArrayRange}
    (hne : str ≠ []) (hnul : ∀ c ∈ str, c ≠ 0) (h0 : 0 ≤ range.start)
    (hse : range.start ≤ range.end_) (hend : range.end_ < (buffer.length : Int)) (q0 : Int)
    (hq : range.start ≤ q0) (hfit : q0 + (str.length : Int) - 1 ≤ range.end_)
    (hmatch : MatchAt buffer str q0)
    (hleast : ∀ q, range.start ≤ q → q < q0 → ¬ MatchAt buffer str q) :
    TryFindStringByMemcmp buffer range str =
      .ok (true, ⟨if q0 + (str.length : Int) ≤ range.end_ then q0 + (str.length : Int)
        else range.end_, range.end_⟩) := by
  unfold TryFindStringByMemcmp
  simp only [CheckRange_ok hse, bind, Except.bind, strlen_cstr hnul]
  exact memcmpLoop_found hne hend q0 hfit hmatch _ range.start h0 hq (by omega) hleast

theorem TryFindStringByMemcmp_notFound {buffer str : List Byte} {range : ArrayRange}
    (hne : str ≠ []) (hnul : ∀ c ∈ str, c ≠ 0) (h0 : 0 ≤ range.start)
    (hse : range.start ≤ range.end_) (hend : range.end_ < (buffer.length : Int))
    (hno : ∀ q, range.start ≤ q → q + (str.length : Int) - 1 ≤ range.end_ →
      ¬ MatchAt buffer str q) :
    TryFindStringByMemcmp buffer range str = .ok (false, range) := by
  unfold TryFindStringByMemcmp
  simp only [CheckRange_ok hse, bind, Except.bind, strlen_cstr hnul]
  exact memcmpLoop_notFound hne hend _ range.start h0 (by omega) (by omega) hno

theorem readAt_cstr_zero {str : List Byte} (hne : str ≠ []) :
    ∃ first, readAt (cstr str) 0 = .ok first := by
  have hm : 0 < str.length := List.length_pos.2 hne
  exact ⟨str[0], by simpa using readAt_cstr_lt hm⟩

theorem TryFindStringByLoop_found {buffer str : List Byte} {range : ArrayRange}
    (hne : str ≠ []) (hnul : ∀ c ∈ str, c ≠ 0) (h0 : 0 ≤ range.start)
    (hse : range.start ≤ range.end_) (hend : range.end_ < (buffer.length : Int)) (q0 : Int)
    (hq : range.start ≤ q0) (hfit : q0 + (str.length : Int) - 1 ≤ range.end_)
    (hmatch : MatchAt buffer str q0)
    (hleast : ∀ q, range.start ≤ q → q < q0 → ¬ MatchAt buffer str q) :
    TryFindStringByLoop buffer range str =
      .ok (true, ⟨if q0 + (str.length : Int) ≤ range.end_ then q0 + (str.length : Int)
        else range.end_, range.end_⟩) := by
  obtain ⟨first, hfirst⟩ := readAt_cstr_zero hne
  unfold TryFindStringByLoop
  simp only [CheckRange_ok hse, bind, Except.bind, hfirst]
  exact outer_found hne hnul hend hfirst q0 hfit hmatch _ range.start h0 hq (by omega) hleast

theorem TryFindStringByLoop_notFound {buffer str : List Byte} {range : ArrayRange}
    (hne : str ≠ []) (hnul : ∀ c ∈ str, c ≠ 0) (h0 : 0 ≤ range.start)
    (hse : range.start ≤ range.end_) (hend : range.end_ < (buffer.length : Int))
    (hno : ∀ q, range.start ≤ q → q + (str.length : Int) - 1 ≤ range.end_ →
      ¬ MatchAt buffer str q) :
    TryFindStringByLoop buffer range str = .ok (false, range) := by
  obtain ⟨first, hfirst⟩ := readAt_cstr_zero hne
  unfold TryFindStringByLoop
  simp only [CheckRange_ok hse, bind, Except.bind, hfirst]
  exact outer_notFound hne hnul hend hfirst _ range.start h0 (by omega) (by omega) hno

/-- Among the occurrences of the pattern that fit in the window there is a first
one. -/
theorem exists_first_match {buffer str : List Byte} {range : ArrayRange}
    (hex : ∃ p, range.start ≤ p ∧ p + (str.length : Int) - 1 ≤ range.end_ ∧
      MatchAt buffer str p) :
    ∃ q0, range.start ≤ q0 ∧ q0 + (str.length : Int) - 1 ≤ range.end_ ∧
      MatchAt buffer str q0 ∧
      (∀ q, range.start ≤ q → q + (str.length : Int) - 1 ≤ range.end_ →
        MatchAt buffer str q → q0 ≤ q) ∧
      (∀ q, range.start ≤ q → q < q0 → ¬ MatchAt buffer str q) := by
  obtain ⟨q0, ⟨h1, h2, h3⟩, hmin⟩ := Int.exists_least_of_bdd
    (P := fun z => range.start ≤ z ∧ z + (str.length : Int) - 1 ≤ range.end_ ∧
      MatchAt buffer str z) ⟨range.start, fun z hz => hz.1⟩ hex
  refine ⟨q0, h1, h2, h3, fun q a b c => hmin q ⟨a, b, c⟩, ?_⟩
  intro q hq hlt hm
  have := hmin q ⟨hq, by omega, hm⟩
  omega

/-! ## Claims on the integer readers -/

/-- C7: whenever `ReadInt64` completes, the value it returns is the signed 64-bit
two's-complement integer whose big-endian representation is the eight bytes
`buffer[start .. start + 7]`, the byte at `start` being the most significant,
whether plain `char` is signed or unsigned. -/
theorem ReadInt64_bigEndian (charSigned : Bool) (buffer : List Byte) (range : ArrayRange)
    (v : Int) (range' : ArrayRange)
    (h : ReadInt64 charSigned buffer range = .ok (v, range')) :
    ∃ bs, bytesAt buffer range.start 8 = some bs ∧ bs.length = 8 ∧
      v = toSigned 64 (beDecode bs) := by
  obtain ⟨d0, d1, d2, d3, d4, d5, d6, d7, h0, h1, h2, h3, h4, h5, h6, h7, hv⟩ :=
    ReadInt64_ok_inv h
  have hs : 0 ≤ range.start := by
    have := (readAt_eq_ok.1 h0).1
    omega
  have g0 := readAt_add_ok (k := 0) hs h0
  have g1 := readAt_add_ok (k := 1) hs h1
  have g2 := readAt_add_ok (k := 2) hs h2
  have g3 := readAt_add_ok (k := 3) hs h3
  have g4 := readAt_add_ok (k := 4) hs h4
  have g5 := readAt_add_ok (k := 5) hs h5
  have g6 := readAt_add_ok (k := 6) hs h6
  have g7 := readAt_add_ok (k := 7) hs h7
  have hlt : range.start.toNat + 7 < buffer.length := (List.getElem?_eq_some.1 g7).1
  refine ⟨[d0, d1, d2, d3, d4, d5, d6, d7], ?_, rfl, hv⟩
  unfold bytesAt
  rw [if_pos ⟨hs, by omega⟩]
  rw [take_drop_succ (n := range.start.toNat) g0, take_drop_succ g1,
    take_drop_succ (n := range.start.toNat + 1 + 1) g2,
    take_drop_succ (n := range.start.toNat + 1 + 1 + 1) g3,
    take_drop_succ (n := range.start.toNat + 1 + 1 + 1 + 1) g4,
    take_drop_succ (n := range.start.toNat + 1 + 1 + 1 + 1 + 1) g5,
    take_drop_succ (n := range.start.toNat + 1 + 1 + 1 + 1 + 1 + 1) g6,
    take_drop_succ (n := range.start.toNat + 1 + 1 + 1 + 1 + 1 + 1 + 1) g7]
  rfl

set_option maxRecDepth 8000 in
/-- Witness of C7: bytes `FF 00 00 00 00 00 00 FF` under a signed `char`. -/
theorem ReadInt64_bigEndian_witness :
    ∃ bs, bytesAt [255, 0, 0, 0, 0, 0, 0, 255, 7] (0 : Int) 8 = some bs ∧ bs.length = 8 ∧
      (-72057594037927681 : Int) = toSigned 64 (beDecode bs) :=
  ReadInt64_bigEndian true [255, 0, 0, 0, 0, 0, 0, 255, 7] ⟨0, 8⟩ (-72057594037927681)
    ⟨8, 8⟩ (by decide)

/-- C8 (the code at the failing input): with a signed plain `char`, `ReadInt32`
on the bytes `00 00 00 FF` returns `-1`, while the big-endian value of these
four bytes is `255`: the unmasked low byte is sign-extended.  With an unsigned
plain `char` the same call returns `255`. -/
theorem ReadInt32_signedChar_artifact :
    ReadInt32 true [0, 0, 0, 255, 0] ⟨0, 4⟩ = .ok (-1, ⟨4, 4⟩) ∧
      bytesAt [0, 0, 0, 255, 0] (0 : Int) 4 = some [0, 0, 0, 255] ∧
      toSigned 32 (beDecode [0, 0, 0, 255]) = 255 ∧
      ReadInt32 false [0, 0, 0, 255, 0] ⟨0, 4⟩ = .ok (255, ⟨4, 4⟩) := by
  decide

/-- C9 (the code at the failing input): with a signed plain `char`, `ReadInt16`
on the bytes `00 FF` returns `-1`, while the big-endian value of these two
bytes is `255`: the low byte is sign-extended.  With an unsigned plain `char`
the same call returns `255`. -/
theorem ReadInt16_signedChar_artifact :
    ReadInt16 true [0, 255, 0] ⟨0, 2⟩ = .ok (-1, ⟨2, 2⟩) ∧
      bytesAt [0, 255, 0] (0 : Int) 2 = some [0, 255] ∧
      toSigned 16 (beDecode [0, 255]) = 255 ∧
      ReadInt16 false [0, 255, 0] ⟨0, 2⟩ = .ok (255, ⟨2, 2⟩) := by
  decide

theorem readAt_ne_rangeAssert (buffer : List Byte) (i : Int) :
    readAt buffer i ≠ .error .rangeAssert := by
  unfold readAt
  split
  · split <;> simp
  · simp

theorem falseKeeps_bind {α : Type} {range : ArrayRange} {x : Except Fault α}
    {f : α → Except Fault (Bool × ArrayRange)} (hx : x ≠ .error .rangeAssert)
    (hf : ∀ a, FalseKeeps range (f a)) : FalseKeeps range (x >>= f) := by
  cases x with
  | error e =>
    constructor
    · intro h
      apply hx
      simpa [bind, Except.bind] using h
    · intro r' h
      simp [bind, Except.bind] at h
  | ok a => exact hf a

theorem memcmp_ne_rangeAssert (s1 s2 : List Byte) : ∀ (n : Nat) (p1 p2 : Int),
    memcmp s1 p1 s2 p2 n ≠ .error .rangeAssert := by
  intro n
  induction n with
  | zero =>
    intro p1 p2
    simp [memcmp, pure, Except.pure]
  | succ n ih =>
    intro p1 p2 h
    unfold memcmp at h
    have h1 := readAt_ne_rangeAssert s1 p1
    have h2 := readAt_ne_rangeAssert s2 p2
    have h3 := ih (p1 + 1) (p2 + 1)
    cases ha : readAt s1 p1 with
    | error e => simp [ha, bind, Except.bind] at h; exact h1 (by rw [ha, h])
    | ok a =>
      cases hb : readAt s2 p2 with
      | error e => simp [ha, hb, bind, Except.bind] at h; exact h2 (by rw [hb, h])
      | ok b =>
        cases hc : memcmp s1 (p1 + 1) s2 (p2 + 1) n with
        | error e => simp [ha, hb, hc, bind, Except.bind] at h; exact h3 (by rw [hc, h])
        | ok c => simp [ha, hb, hc, bind, Except.bind, pure, Except.pure] at h

theorem memcmpLoop_falseKeeps (buffer str : List Byte) (range : ArrayRange) (len2 : Int) :
    ∀ (fuel : Nat) (p len1 : Int),
      FalseKeeps range (TryFindStringByMemcmp.loop buffer range str len2 fuel p len1) := by
  intro fuel
  induction fuel with
  | zero =>
    intro p len1
    simp [TryFindStringByMemcmp.loop, FalseKeeps]
  | succ fuel ih =>
    intro p len1
    unfold TryFindStringByMemcmp.loop
    split
    · apply falseKeeps_bind (memcmp_ne_rangeAssert _ _ _ _ _)
      intro c
      split
      · dsimp only
        split <;> simp [FalseKeeps, pure, Except.pure]
      · exact ih _ _
    · simp [FalseKeeps, pure, Except.pure]

theorem inner_ne_rangeAssert (buffer str : List Byte) (range : ArrayRange) (end_ : Int) :
    ∀ (fuel : Nat) (cmp pos : Int),
      TryFindStringByLoop.inner buffer range str end_ fuel cmp pos ≠ .error .rangeAssert := by
  intro fuel
  induction fuel with
  | zero =>
    intro cmp pos
    simp [TryFindStringByLoop.inner]
  | succ fuel ih =>
    intro cmp pos h
    unfold TryFindStringByLoop.inner at h
    have h1 := readAt_ne_rangeAssert (cstr str) (pos + 1)
    cases hc : readAt (cstr str) (pos + 1) with
    | error e => simp [hc, bind, Except.bind] at h; exact h1 (by rw [hc, h])
    | ok c =>
      simp only [hc, bind, Except.bind] at h
      split at h
      · split at h <;> simp [pure, Except.pure] at h
      · split at h
        · simp [pure, Except.pure] at h
        · have h2 := readAt_ne_rangeAssert buffer (cmp + 1)
          cases hb : readAt buffer (cmp + 1) with
          | error e => simp [hb] at h; exact h2 (by rw [hb, h])
          | ok b =>
            simp only [hb] at h
            split at h
            · simp [pure, Except.pure] at h
            · exact ih _ _ h

theorem outer_falseKeeps (buffer str : List Byte) (range : ArrayRange) (end_ : Int)
    (first : Byte) : ∀ (fuel : Nat) (p pos : Int),
      FalseKeeps range (TryFindStringByLoop.outer buffer range str end_ first fuel p pos) := by
  intro fuel
  induction fuel with
  | zero =>
    intro p pos
    simp [TryFindStringByLoop.outer, FalseKeeps]
  | succ fuel ih =>
    intro p pos
    unfold TryFindStringByLoop.outer
    split
    · apply falseKeeps_bind (readAt_ne_rangeAssert _ _)
      intro b
      split
      · apply falseKeeps_bind (inner_ne_rangeAssert _ _ _ _ _ _ _)
        intro res
        cases res with
        | found r => simp [FalseKeeps, pure, Except.pure]
        | notFound => simp [FalseKeeps, pure, Except.pure]
        | brk pos' => exact ih _ _
      · exact ih _ _
    · simp [FalseKeeps, pure, Except.pure]

/-- C1: for every buffer, every range with `start <= end` lying inside the
buffer and every non-empty NUL-free pattern, `TryFindStringByLoop` and
`TryFindStringByMemcmp` return the same boolean and leave the range in the same
state, and both do return. -/
theorem TryFindString_variants_agree (buffer str : List Byte) (range : ArrayRange)
    (hne : str ≠ []) (hnul : ∀ c ∈ str, c ≠ 0) (h0 : 0 ≤ range.start)
    (hse : range.start ≤ range.end_) (hend : range.end_ < (buffer.length : Int)) :
    TryFindStringByLoop buffer range str = TryFindStringByMemcmp buffer range str ∧
      ∃ b r', TryFindStringByMemcmp buffer range str = .ok (b, r') := by
  by_cases hex : ∃ p, range.start ≤ p ∧ p + (str.length : Int) - 1 ≤ range.end_ ∧
      MatchAt buffer str p
  · obtain ⟨q0, hq, hfit, hmatch, _, hleast⟩ := exists_first_match hex
    rw [TryFindStringByLoop_found hne hnul h0 hse hend q0 hq hfit hmatch hleast,
      TryFindStringByMemcmp_found hne hnul h0 hse hend q0 hq hfit hmatch hleast]
    exact ⟨rfl, _, _, rfl⟩
  · have hno : ∀ q, range.start ≤ q → q + (str.length : Int) - 1 ≤ range.end_ →
        ¬ MatchAt buffer str q := fun q a b c => hex ⟨q, a, b, c⟩
    rw [TryFindStringByLoop_notFound hne hnul h0 hse hend hno,
      TryFindStringByMemcmp_notFound hne hnul h0 hse hend hno]
    exact ⟨rfl, _, _, rfl⟩

set_option maxRecDepth 8000 in
/-- Witness of C1: the pattern `baz`, whose match in `foobarbaz` ends exactly at
`end`. -/
theorem TryFindString_variants_agree_witness :
    TryFindStringByLoop (ascii "foobarbaz") ⟨0, 8⟩ (ascii "baz") =
        TryFindStringByMemcmp (ascii "foobarbaz") ⟨0, 8⟩ (ascii "baz") ∧
      ∃ b r', TryFindStringByMemcmp (ascii "foobarbaz") ⟨0, 8⟩ (ascii "baz") = .ok (b, r') :=
  TryFindString_variants_agree (ascii "foobarbaz") (ascii "baz") ⟨0, 8⟩ (by decide) (by decide)
    (by decide) (by decide) (by decide)

/-- C2: for every buffer, range with `start <= end` inside the buffer and
non-empty pattern of length `m`, the exposed `TryFindString`
(`TryFindStringByMemcmp`) returns `true` exactly when some index `p` with
`start <= p` and `p + m - 1 <= end` has `buffer[p .. p + m - 1]` equal to the
pattern; when it returns `true`, with `p` the least such index, `range.start`
becomes `p + m` if `p + m <= end` and `end` otherwise, and `range.end` is
unchanged. -/
theorem TryFindString_first_occurrence (buffer str : List Byte) (range : ArrayRange)
    (hne : str ≠ []) (hnul : ∀ c ∈ str, c ≠ 0) (h0 : 0 ≤ range.start)
    (hse : range.start ≤ range.end_) (hend : range.end_ < (buffer.length : Int)) :
    ∃ b r', TryFindStringByMemcmp buffer range str = .ok (b, r') ∧
      (b = true ↔ ∃ p, range.start ≤ p ∧ p + (str.length : Int) - 1 ≤ range.end_ ∧
        MatchAt buffer str p) ∧
      (b = true → ∃ p, range.start ≤ p ∧ p + (str.length : Int) - 1 ≤ range.end_ ∧
        MatchAt buffer str p ∧
        (∀ q, range.start ≤ q → q + (str.length : Int) - 1 ≤ range.end_ →
          MatchAt buffer str q → p ≤ q) ∧
        r'.start = (if p + (str.length : Int) ≤ range.end_ then p + (str.length : Int)
          else range.end_) ∧
        r'.end_ = range.end_) := by
  by_cases hex : ∃ p, range.start ≤ p ∧ p + (str.length : Int) - 1 ≤ range.end_ ∧
      MatchAt buffer str p
  · obtain ⟨q0, hq, hfit, hmatch, hmin, hleast⟩ := exists_first_match hex
    refine ⟨true, _, TryFindStringByMemcmp_found hne hnul h0 hse hend q0 hq hfit hmatch hleast,
      ⟨fun _ => hex, fun _ => rfl⟩, fun _ => ⟨q0, hq, hfit, hmatch, hmin, rfl, rfl⟩⟩
  · have hno : ∀ q, range.start ≤ q → q + (str.length : Int) - 1 ≤ range.end_ →
        ¬ MatchAt buffer str q := fun q a b c => hex ⟨q, a, b, c⟩
    refine ⟨false, _, TryFindStringByMemcmp_notFound hne hnul h0 hse hend hno,
      ⟨fun h => by simp at h, fun h => absurd h hex⟩, fun h => by simp at h⟩

set_option maxRecDepth 8000 in
/-- Witness of C2: buffer `foobarbaz`, pattern `bar`, range `[0, 8]` gives `true`
and `range.start = 6`. -/
theorem TryFindString_first_occurrence_witness :
    TryFindStringByMemcmp (ascii "foobarbaz") ⟨0, 8⟩ (ascii "bar") = .ok (true, ⟨6, 8⟩) ∧
    ∃ b r', TryFindStringByMemcmp (ascii "foobarbaz") ⟨0, 8⟩ (ascii "bar") = .ok (b, r') ∧
      (b = true ↔ ∃ p, (0 : Int) ≤ p ∧ p + ((ascii "bar").length : Int) - 1 ≤ 8 ∧
        MatchAt (ascii "foobarbaz") (ascii "bar") p) ∧
      (b = true → ∃ p, (0 : Int) ≤ p ∧ p + ((ascii "bar").length : Int) - 1 ≤ 8 ∧
        MatchAt (ascii "foobarbaz") (ascii "bar") p ∧
        (∀ q, (0 : Int) ≤ q → q + ((ascii "bar").length : Int) - 1 ≤ 8 →
          MatchAt (ascii "foobarbaz") (ascii "bar") q → p ≤ q) ∧
        r'.start = (if p + ((ascii "bar").length : Int) ≤ 8 then
          p + ((ascii "bar").length : Int) else 8) ∧
        r'.end_ = 8) :=
  ⟨by decide, TryFindString_first_occurrence (ascii "foobarbaz") (ascii "bar") ⟨0, 8⟩
    (by decide) (by decide) (by decide) (by decide) (by decide)⟩

/-- C3: for every buffer, range with `start <= end` and pattern, whenever
`TryFindStringByLoop` or `TryFindStringByMemcmp` returns `false`, the range it
leaves is the range it was given, and neither call ends in the fatal range
assertion. -/
theorem TryFindString_false_keeps_range (buffer str : List Byte) (range : ArrayRange)
    (hse : range.start ≤ range.end_) :
    (∀ r', TryFindStringByLoop buffer range str = .ok (false, r') → r' = range) ∧
    (∀ r', TryFindStringByMemcmp buffer range str = .ok (false, r') → r' = range) ∧
    TryFindStringByLoop buffer range str ≠ .error .rangeAssert ∧
    TryFindStringByMemcmp buffer range str ≠ .error .rangeAssert := by
  have hl : FalseKeeps range (TryFindStringByLoop buffer range str) := by
    unfold TryFindStringByLoop
    simp only [CheckRange_ok hse, bind, Except.bind]
    exact falseKeeps_bind (readAt_ne_rangeAssert _ _) (fun first =>
      outer_falseKeeps buffer str range range.end_ first _ _ _)
  have hm : FalseKeeps range (TryFindStringByMemcmp buffer range str) := by
    unfold TryFindStringByMemcmp
    simp only [CheckRange_ok hse, bind, Except.bind]
    exact memcmpLoop_falseKeeps buffer str range _ _ _ _
  exact ⟨hl.2, hm.2, hl.1, hm.1⟩

set_option maxRecDepth 8000 in
/-- Witness of C3: the pattern `qux` is absent from `foobarbaz`; both variants
return `false` and the range `[0, 8]` is unchanged. -/
theorem TryFindString_false_keeps_range_witness :
    TryFindStringByLoop (ascii "foobarbaz") ⟨0, 8⟩ (ascii "qux") = .ok (false, ⟨0, 8⟩) ∧
    TryFindStringByMemcmp (ascii "foobarbaz") ⟨0, 8⟩ (ascii "qux") = .ok (false, ⟨0, 8⟩) ∧
    (⟨0, 8⟩ : ArrayRange) = ⟨0, 8⟩ :=
  ⟨by decide, by decide,
    (TryFindString_false_keeps_range (ascii "foobarbaz") (ascii "qux") ⟨0, 8⟩
      (by decide)).2.1 ⟨0, 8⟩ (by decide)⟩

/-! ## The line reader -/

theorem readLineLoop_scan {buffer : List Byte} {range : ArrayRange} {outStart s : Int}
    (hend : range.end_ < (buffer.length : Int)) (hs : s ≤ range.end_ + 1)
    {R : Except Fault (ArrayRange × ArrayRange)}
    (hR : ∀ f, ReadLine.loop buffer range outStart range.end_ (f + 1) s = R) :
    ∀ (fuel : Nat) (p : Int), 0 ≤ p → p ≤ s →
      (∀ i, p ≤ i → i < s → ¬ IsNewlineAt buffer i) → s - p + 1 ≤ (fuel : Int) →
      ReadLine.loop buffer range outStart range.end_ fuel p = R := by
  intro fuel
  induction fuel with
  | zero =>
    intro p _ h1 _ h2
    omega
  | succ fuel ih =>
    intro p hp0 hps hscan hf
    by_cases hpe : p = s
    · subst hpe
      exact hR fuel
    · have hle : p ≤ range.end_ := by omega
      obtain ⟨c, hc⟩ := readAt_inBounds buffer p hp0 (by omega)
      have hnl := hscan p le_rfl (by omega)
      have h10 : c ≠ 10 := fun h => hnl (Or.inl (by rw [hc, h]))
      have h13 : c ≠ 13 := fun h => hnl (Or.inr (by rw [hc, h]))
      unfold ReadLine.loop
      simp only [hle, if_true, hc, bind, Except.bind, h10, h13, if_false]
      exact ih (p + 1) (by omega) (by omega) (fun i hi => hscan i (by omega)) (by omega)

theorem ReadLine_eq_loop {buffer : List Byte} {range : ArrayRange}
    (hse : range.start ≤ range.end_) :
    ReadLine buffer range = ReadLine.loop buffer range range.start range.end_
      ((range.end_ - range.start).toNat + 2) range.start := by
  unfold ReadLine
  simp only [CheckRange_ok hse, bind, Except.bind]

theorem ReadLine_no_terminator (buffer : List Byte) (range : ArrayRange)
    (h0 : 0 ≤ range.start) (hse : range.start ≤ range.end_)
    (hend : range.end_ < (buffer.length : Int))
    (hscan : ∀ i, range.start ≤ i → i ≤ range.end_ → ¬ IsNewlineAt buffer i) :
    ReadLine buffer range = .ok (⟨range.start, range.end_⟩, range) := by
  rw [ReadLine_eq_loop hse]
  refine readLineLoop_scan (s := range.end_ + 1) hend le_rfl ?_ _ _ h0 (by omega)
    (fun i hi hi2 => hscan i hi (by omega)) (by omega)
  intro f
  unfold ReadLine.loop
  have h : ¬ (range.end_ + 1 ≤ range.end_) := by omega
  simp only [h, if_false, pure, Except.pure]

theorem ReadLine_at_lf (buffer : List Byte) (range : ArrayRange)
    (h0 : 0 ≤ range.start) (hend : range.end_ < (buffer.length : Int)) (s : Int)
    (hs : range.start ≤ s) (hse : s ≤ range.end_)
    (hscan : ∀ i, range.start ≤ i → i < s → ¬ IsNewlineAt buffer i)
    (h : readAt buffer s = .ok 10) :
    ReadLine buffer range =
      .ok (⟨range.start, s⟩, ⟨if s ≠ range.end_ then s + 1 else range.end_, range.end_⟩) := by
  rw [ReadLine_eq_loop (by omega)]
  refine readLineLoop_scan (s := s) hend (by omega) ?_ _ _ h0 hs hscan (by omega)
  intro f
  unfold ReadLine.loop
  simp only [hse, if_true, h, bind, Except.bind]
  split <;> simp_all [pure, Except.pure]

theorem ReadLine_at_crlf (buffer : List Byte) (range : ArrayRange)
    (h0 : 0 ≤ range.start) (hend : range.end_ < (buffer.length : Int)) (s : Int)
    (hs : range.start ≤ s) (hse : s < range.end_)
    (hscan : ∀ i, range.start ≤ i → i < s → ¬ IsNewlineAt buffer i)
    (h : readAt buffer s = .ok 13) (h2 : readAt buffer (s + 1) = .ok 10) :
    ReadLine buffer range =
      .ok (⟨range.start, s + 1⟩,
        ⟨if s + 1 ≠ range.end_ then s + 1 + 1 else range.end_, range.end_⟩) := by
  rw [ReadLine_eq_loop (by omega)]
  refine readLineLoop_scan (s := s) hend (by omega) ?_ _ _ h0 hs hscan (by omega)
  intro f
  unfold ReadLine.loop
  have hle : s ≤ range.end_ := by omega
  have hne : s ≠ range.end_ := by omega
  have h13 : (13 : Byte) ≠ 10 := by decide
  simp only [hle, if_true, h, bind, Except.bind, h13, if_false, ne_eq, hne, not_false_eq_true,
    h2]
  split <;> simp_all [pure, Except.pure]

theorem ReadLine_at_cr (buffer : List Byte) (range : ArrayRange)
    (h0 : 0 ≤ range.start) (hend : range.end_ < (buffer.length : Int)) (s : Int)
    (hs : range.start ≤ s) (hse : s < range.end_)
    (hscan : ∀ i, range.start ≤ i → i < s → ¬ IsNewlineAt buffer i)
    (h : readAt buffer s = .ok 13) (h2 : readAt buffer (s + 1) ≠ .ok 10) :
    ReadLine buffer range = .ok (⟨range.start, s⟩, ⟨s + 1, range.end_⟩) := by
  rw [ReadLine_eq_loop (by omega)]
  refine readLineLoop_scan (s := s) hend (by omega) ?_ _ _ h0 hs hscan (by omega)
  intro f
  unfold ReadLine.loop
  have hle : s ≤ range.end_ := by omega
  have hne : s ≠ range.end_ := by omega
  have h13 : (13 : Byte) ≠ 10 := by decide
  obtain ⟨c, hc⟩ := readAt_inBounds buffer (s + 1) (by omega) (by omega)
  have hc10 : c ≠ 10 := fun e => h2 (by rw [hc, e])
  simp only [hle, if_true, h, bind, Except.bind, h13, if_false, ne_eq, hne, not_false_eq_true,
    hc, hc10, pure, Except.pure]
  congr 3
  omega

theorem ReadLine_at_cr_end (buffer : List Byte) (range : ArrayRange)
    (h0 : 0 ≤ range.start) (hse : range.start ≤ range.end_)
    (hend : range.end_ < (buffer.length : Int))
    (hscan : ∀ i, range.start ≤ i → i < range.end_ → ¬ IsNewlineAt buffer i)
    (h : readAt buffer range.end_ = .ok 13) :
    ReadLine buffer range = .ok (⟨range.start, range.end_⟩, ⟨range.end_, range.end_⟩) := by
  rw [ReadLine_eq_loop hse]
  refine readLineLoop_scan (s := range.end_) hend (by omega) ?_ _ _ h0 hse hscan (by omega)
  intro f
  unfold ReadLine.loop
  have h13 : (13 : Byte) ≠ 10 := by decide
  simp only [le_refl, if_true, h, bind, Except.bind, h13, if_false, ne_eq, not_true_eq_false,
    pure, Except.pure]

/-- Every way a `ReadLine` call on a window inside the buffer can come out. -/
theorem ReadLine_cases {buffer : List Byte} {range : ArrayRange}
    (h0 : 0 ≤ range.start) (hse : range.start ≤ range.end_)
    (hend : range.end_ < (buffer.length : Int)) :
    ((∀ i, range.start ≤ i → i ≤ range.end_ → ¬ IsNewlineAt buffer i) ∧
      ReadLine buffer range = .ok (⟨range.start, range.end_⟩, range)) ∨
    ∃ s, range.start ≤ s ∧ s ≤ range.end_ ∧
      (∀ i, range.start ≤ i → i < s → ¬ IsNewlineAt buffer i) ∧
      ((readAt buffer s = .ok 10 ∧ ReadLine buffer range =
          .ok (⟨range.start, s⟩, ⟨if s ≠ range.end_ then s + 1 else range.end_, range.end_⟩)) ∨
       (readAt buffer s = .ok 13 ∧ s < range.end_ ∧ readAt buffer (s + 1) = .ok 10 ∧
          ReadLine buffer range = .ok (⟨range.start, s + 1⟩,
            ⟨if s + 1 ≠ range.end_ then s + 1 + 1 else range.end_, range.end_⟩)) ∨
       (readAt buffer s = .ok 13 ∧ s < range.end_ ∧ readAt buffer (s + 1) ≠ .ok 10 ∧
          ReadLine buffer range = .ok (⟨range.start, s⟩, ⟨s + 1, range.end_⟩)) ∨
       (readAt buffer s = .ok 13 ∧ s = range.end_ ∧
          ReadLine buffer range = .ok (⟨range.start, range.end_⟩,
            ⟨range.end_, range.end_⟩))) := by
  by_cases hex : ∃ i, range.start ≤ i ∧ i ≤ range.end_ ∧ IsNewlineAt buffer i
  · right
    obtain ⟨s, ⟨hs1, hs2, hnl⟩, hmin⟩ := Int.exists_least_of_bdd
      (P := fun z => range.start ≤ z ∧ z ≤ range.end_ ∧ IsNewlineAt buffer z)
      ⟨range.start, fun z hz => hz.1⟩ hex
    have hscan : ∀ i, range.start ≤ i → i < s → ¬ IsNewlineAt buffer i := by
      intro i hi hlt hn
      have := hmin i ⟨hi, by omega, hn⟩
      omega
    refine ⟨s, hs1, hs2, hscan, ?_⟩
    rcases hnl with h10 | h13
    · exact Or.inl ⟨h10, ReadLine_at_lf buffer range h0 hend s hs1 hs2 hscan h10⟩
    · by_cases hse2 : s = range.end_
      · subst hse2
        exact Or.inr (Or.inr (Or.inr ⟨h13, rfl, ReadLine_at_cr_end buffer range h0 hse hend hscan h13⟩))
      · have hlt : s < range.end_ := by omega
        by_cases hn : readAt buffer (s + 1) = .ok 10
        · exact Or.inr (Or.inl ⟨h13, hlt, hn, ReadLine_at_crlf buffer range h0 hend s hs1 hlt hscan h13 hn⟩)
        · exact Or.inr (Or.inr (Or.inl
            ⟨h13, hlt, hn, ReadLine_at_cr buffer range h0 hend s hs1 hlt hscan h13 hn⟩))
  · left
    have hscan : ∀ i, range.start ≤ i → i ≤ range.end_ → ¬ IsNewlineAt buffer i :=
      fun i a b c => hex ⟨i, a, b, c⟩
    exact ⟨hscan, ReadLine_no_terminator buffer range h0 hse hend hscan⟩

theorem ReadLines_fixed {buffer : List Byte} {range out : ArrayRange}
    (h : ReadLine buffer range = .ok (out, range)) :
    ∀ n, ReadLines buffer n range = .ok (List.replicate n out, range) := by
  intro n
  induction n with
  | zero => rfl
  | succ n ih =>
    unfold ReadLines
    simp only [h, ih, bind, Except.bind, pure, Except.pure, List.replicate_succ]

/-! ## Lines joined by terminators -/

theorem readAt_append_offset (pre rest : List Byte) (j : Nat) :
    readAt (pre ++ rest) ((pre.length : Int) + (j : Int)) = readAt rest (j : Int) := by
  unfold readAt
  have e1 : ((pre.length : Int) + (j : Int)).toNat = pre.length + j := by omega
  have e2 : ((j : Int)).toNat = j := by omega
  have h1 : (0 : Int) ≤ (pre.length : Int) + (j : Int) := by omega
  have h2 : (0 : Int) ≤ (j : Int) := by omega
  rw [if_pos h1, if_pos h2, e1, e2, List.getElem?_append_right (by omega)]
  simp

theorem readAt_append_lt (l rest : List Byte) (j : Nat) (h : j < l.length) :
    readAt (l ++ rest) (j : Int) = .ok l[j] := by
  have h2 : j < (l ++ rest).length := by simp; omega
  rw [readAt_natCast h2, List.getElem_append_left h]

theorem bytesAt_segment (pre mid post : List Byte) (n : Nat) (hn : n = mid.length) :
    bytesAt (pre ++ (mid ++ post)) (pre.length : Int) n = some mid := by
  subst hn
  unfold bytesAt
  have h : (0 : Int) ≤ (pre.length : Int) ∧
      ((pre.length : Int)).toNat + mid.length ≤ (pre ++ (mid ++ post)).length := by
    constructor
    · omega
    · simp
  rw [if_pos h]
  simp

theorem readAt_cons_zero (b : Byte) (S : List Byte) : readAt (b :: S) 0 = .ok b := by
  simp [readAt]

theorem readAt_cons_one (a : Byte) (S : List Byte) : readAt (a :: S) 1 = readAt S 0 := by
  simp [readAt]

theorem readAt_zero_ne_of_head {S : List Byte} {b : Byte} (h : S.head? ≠ some b) :
    readAt S 0 ≠ .ok b := by
  cases S with
  | nil => simp [readAt]
  | cons c cs =>
    rw [readAt_cons_zero]
    intro e
    apply h
    simp [Except.ok.inj e]

/-- One `ReadLine` call on a window that starts with the line `l` followed by the
terminator `t` and the remainder `S`. -/
theorem readLine_segment (pre l : List Byte) (t : Terminator) (S : List Byte)
    (hl : NoNewline l) (hS : t = .cr → S.head? ≠ some 10) :
    ReadLine (pre ++ (l ++ t.bytes ++ S))
        ⟨(pre.length : Int), ((pre ++ (l ++ t.bytes ++ S)).length : Int) - 1⟩ =
      .ok (⟨(pre.length : Int),
          (pre.length : Int) + (l.length : Int) + (t.bytes.length : Int) - 1⟩,
        ⟨if S = [] then ((pre ++ (l ++ t.bytes ++ S)).length : Int) - 1
          else (pre.length : Int) + (l.length : Int) + (t.bytes.length : Int),
         ((pre ++ (l ++ t.bytes ++ S)).length : Int) - 1⟩) := by
  have hlen : ((pre ++ (l ++ t.bytes ++ S)).length : Int) =
      (pre.length : Int) + (l.length : Int) + (t.bytes.length : Int) + (S.length : Int) := by
    simp only [List.length_append]
    push_cast
    ring
  have hscan : ∀ i : Int, (pre.length : Int) ≤ i → i < (pre.length : Int) + (l.length : Int) →
      ¬ IsNewlineAt (pre ++ (l ++ t.bytes ++ S)) i := by
    intro i h1 h2 hnl
    have hj : (i - (pre.length : Int)).toNat < l.length := by omega
    have e : i = (pre.length : Int) + (((i - (pre.length : Int)).toNat : Nat) : Int) := by omega
    have hmem := hl _ (List.getElem_mem hj)
    unfold IsNewlineAt at hnl
    rw [e, readAt_append_offset, List.append_assoc, readAt_append_lt _ _ _ hj] at hnl
    rcases hnl with h | h
    · exact hmem.1 (Except.ok.inj h)
    · exact hmem.2 (Except.ok.inj h)
  have hread : ∀ k : Nat, readAt (pre ++ (l ++ t.bytes ++ S))
      ((pre.length : Int) + (l.length : Int) + (k : Int)) = readAt (t.bytes ++ S) (k : Int) := by
    intro k
    have e : (pre.length : Int) + (l.length : Int) + (k : Int) =
        (pre.length : Int) + ((l.length + k : Nat) : Int) := by push_cast; ring
    rw [e, readAt_append_offset, List.append_assoc]
    have e2 : ((l.length + k : Nat) : Int) = (l.length : Int) + (k : Int) := by push_cast; ring
    rw [e2, readAt_append_offset]
  have hread0 := hread 0
  have hread1 := hread 1
  simp only [Nat.cast_zero, add_zero, Nat.cast_one] at hread0 hread1
  have hS0 : S = [] ↔ S.length = 0 := ⟨fun h => by simp [h], fun h => List.length_eq_zero.1 h⟩
  have h0 : (0 : Int) ≤ (pre.length : Int) := by omega
  generalize hB : pre ++ (l ++ t.bytes ++ S) = B at *
  have hendB : (B.length : Int) - 1 < (B.length : Int) := by omega
  cases t with
  | lf =>
    have htl : Terminator.lf.bytes.length = 1 := rfl
    have hb : readAt B ((pre.length : Int) + (l.length : Int)) = .ok 10 := by
      rw [hread0]
      exact readAt_cons_zero _ _
    rw [ReadLine_at_lf B ⟨(pre.length : Int), (B.length : Int) - 1⟩ h0 hendB
      ((pre.length : Int) + (l.length : Int))
      (by show (pre.length : Int) ≤ _; omega)
      (by show _ ≤ (B.length : Int) - 1; omega) hscan hb]
    simp only [htl, Nat.cast_one]
    by_cases hs : S = []
    · have : S.length = 0 := hS0.1 hs
      have h1 : ¬ ((pre.length : Int) + (l.length : Int) ≠ (B.length : Int) - 1) := by omega
      rw [if_neg h1, if_pos hs]
      congr 3
      omega
    · have : S.length ≠ 0 := fun h => hs (hS0.2 h)
      have h1 : (pre.length : Int) + (l.length : Int) ≠ (B.length : Int) - 1 := by omega
      rw [if_pos h1, if_neg hs]
      congr 3
      omega
  | crlf =>
    have htl : Terminator.crlf.bytes.length = 2 := rfl
    have hb : readAt B ((pre.length : Int) + (l.length : Int)) = .ok 13 := by
      rw [hread0]
      exact readAt_cons_zero _ _
    have hb2 : readAt B ((pre.length : Int) + (l.length : Int) + 1) = .ok 10 := by
      rw [hread1]
      exact (readAt_cons_one _ _).trans (readAt_cons_zero _ _)
    rw [ReadLine_at_crlf B ⟨(pre.length : Int), (B.length : Int) - 1⟩ h0 hendB
      ((pre.length : Int) + (l.length : Int))
      (by show (pre.length : Int) ≤ _; omega)
      (by show _ < (B.length : Int) - 1; omega) hscan hb hb2]
    simp only [htl, Nat.cast_ofNat]
    by_cases hs : S = []
    · have : S.length = 0 := hS0.1 hs
      have h1 : ¬ ((pre.length : Int) + (l.length : Int) + 1 ≠ (B.length : Int) - 1) := by omega
      rw [if_neg h1, if_pos hs]
      congr 3
      omega
    · have : S.length ≠ 0 := fun h => hs (hS0.2 h)
      have h1 : (pre.length : Int) + (l.length : Int) + 1 ≠ (B.length : Int) - 1 := by omega
      rw [if_pos h1, if_neg hs]
      congr 3
      omega
  | cr =>
    have htl : Terminator.cr.bytes.length = 1 := rfl
    have hb : readAt B ((pre.length : Int) + (l.length : Int)) = .ok 13 := by
      rw [hread0]
      exact readAt_cons_zero _ _
    simp only [htl, Nat.cast_one]
    by_cases hs : S = []
    · have : S.length = 0 := hS0.1 hs
      have he : (pre.length : Int) + (l.length : Int) = (B.length : Int) - 1 := by omega
      rw [he] at hb hscan
      rw [ReadLine_at_cr_end B ⟨(pre.length : Int), (B.length : Int) - 1⟩ h0
        (by show (pre.length : Int) ≤ (B.length : Int) - 1; omega) hendB hscan hb, if_pos hs]
      dsimp only
      congr 3
      omega
    · have : S.length ≠ 0 := fun h => hs (hS0.2 h)
      have hb2 : readAt B ((pre.length : Int) + (l.length : Int) + 1) ≠ .ok 10 := by
        rw [hread1]
        show readAt (13 :: S) 1 ≠ .ok 10
        rw [readAt_cons_one]
        exact readAt_zero_ne_of_head (hS rfl)
      rw [ReadLine_at_cr B ⟨(pre.length : Int), (B.length : Int) - 1⟩ h0 hendB
        ((pre.length : Int) + (l.length : Int))
        (by show (pre.length : Int) ≤ _; omega)
        (by show _ < (B.length : Int) - 1; omega) hscan hb hb2, if_neg hs]
      dsimp only
      congr 3
      omega

theorem lineBytes_segment (pre mid post : List Byte) (hmid : mid ≠ []) :
    lineBytes (pre ++ (mid ++ post))
      ⟨(pre.length : Int), (pre.length : Int) + (mid.length : Int) - 1⟩ = some mid := by
  have hm : 0 < mid.length := List.length_pos.2 hmid
  unfold lineBytes
  exact bytesAt_segment pre mid post _ (by dsimp only; omega)

theorem joinLines_eq_nil {segs : List (List Byte × Terminator)} (h : joinLines segs = []) :
    segs = [] := by
  cases segs with
  | nil => rfl
  | cons seg rest =>
    obtain ⟨l, t⟩ := seg
    cases t <;> simp [joinLines, Terminator.bytes] at h

/-- The calls of `ReadLines` on joined lines, from any prefix on. -/
theorem readLines_join (tail : List Byte) :
    ∀ (segs : List (List Byte × Terminator)) (pre : List Byte),
      (∀ seg ∈ segs, NoNewline seg.1) → CrNotBeforeLf tail segs →
      ∃ outs r', ReadLines (pre ++ (joinLines segs ++ tail)) segs.length
          ⟨(pre.length : Int), ((pre ++ (joinLines segs ++ tail)).length : Int) - 1⟩
          = .ok (outs, r') ∧
        outs.map (lineBytes (pre ++ (joinLines segs ++ tail))) =
          segs.map (fun seg => some (seg.1 ++ seg.2.bytes)) ∧
        (tail ≠ [] → r' = ⟨((pre ++ joinLines segs).length : Int),
          ((pre ++ (joinLines segs ++ tail)).length : Int) - 1⟩) := by
  intro segs
  induction segs with
  | nil =>
    intro pre _ _
    refine ⟨[], _, rfl, rfl, fun _ => ?_⟩
    simp [joinLines]
  | cons seg rest ih =>
    intro pre hlines hamb
    have hl : NoNewline seg.1 := hlines seg (by simp)
    have hS : seg.2 = .cr → (joinLines rest ++ tail).head? ≠ some 10 := hamb.1
    have hB : pre ++ (joinLines (seg :: rest) ++ tail) =
        pre ++ (seg.1 ++ seg.2.bytes ++ (joinLines rest ++ tail)) := by
      simp [joinLines, List.append_assoc]
    have hB2 : (pre ++ (seg.1 ++ seg.2.bytes)) ++ (joinLines rest ++ tail) =
        pre ++ (seg.1 ++ seg.2.bytes ++ (joinLines rest ++ tail)) := by
      simp [List.append_assoc]
    have hJ : pre ++ joinLines (seg :: rest) = (pre ++ (seg.1 ++ seg.2.bytes)) ++ joinLines rest := by
      simp [joinLines, List.append_assoc]
    have htne : seg.1 ++ seg.2.bytes ≠ [] := by
      cases seg.2 <;> simp [Terminator.bytes]
    have hseg := readLine_segment pre seg.1 seg.2 (joinLines rest ++ tail) hl hS
    have hbytes := lineBytes_segment pre (seg.1 ++ seg.2.bytes) (joinLines rest ++ tail) htne
    have hplen : ((pre ++ (seg.1 ++ seg.2.bytes)).length : Int) =
        (pre.length : Int) + (seg.1.length : Int) + (seg.2.bytes.length : Int) := by
      simp only [List.length_append]
      push_cast
      ring
    have hmlen : (pre.length : Int) + ((seg.1 ++ seg.2.bytes).length : Int) - 1 =
        (pre.length : Int) + (seg.1.length : Int) + (seg.2.bytes.length : Int) - 1 := by
      simp only [List.length_append]
      push_cast
      ring
    rw [hmlen] at hbytes
    rw [hB, hJ]
    simp only [List.length_cons, List.map_cons]
    generalize pre ++ (seg.1 ++ seg.2.bytes ++ (joinLines rest ++ tail)) = B at *
    by_cases hs : joinLines rest ++ tail = []
    · have hrest : rest = [] := joinLines_eq_nil (List.append_eq_nil.1 hs).1
      have htail : tail = [] := (List.append_eq_nil.1 hs).2
      subst hrest
      rw [if_pos hs] at hseg
      refine ⟨[⟨(pre.length : Int),
          (pre.length : Int) + (seg.1.length : Int) + (seg.2.bytes.length : Int) - 1⟩],
        ⟨(B.length : Int) - 1, (B.length : Int) - 1⟩, ?_, ?_, fun h => absurd htail h⟩
      · unfold ReadLines
        simp only [hseg, bind, Except.bind, List.length_nil, ReadLines, pure, Except.pure]
      · simp only [List.map_cons, List.map_nil, hbytes]
    · rw [if_neg hs] at hseg
      obtain ⟨outs, r', h1, h2, h3⟩ := ih (pre ++ (seg.1 ++ seg.2.bytes))
        (fun sg hsg => hlines sg (by simp [hsg])) hamb.2
      rw [hB2, hplen] at h1
      rw [hB2] at h2 h3
      refine ⟨⟨(pre.length : Int),
          (pre.length : Int) + (seg.1.length : Int) + (seg.2.bytes.length : Int) - 1⟩ :: outs,
        r', ?_, ?_, h3⟩
      · unfold ReadLines
        simp only [hseg, bind, Except.bind, h1, pure, Except.pure]
      · simp only [List.map_cons, hbytes, h2]

/-! ## Claims on the line reader -/

set_option maxRecDepth 8000 in
/-- C4 (counterexample): on the buffer `AB\r\nCD\rEF\nGH` with the whole-buffer
range, the four successive output ranges hold `AB\r\n`, `CD\r`, `EF\n`, `GH`:
the terminators are not stripped.  And the lines `A` and the empty line, joined
with the terminators `\r` and `\n`, are read back as the single line `A\r\n`
followed by `\n`. -/
theorem ReadLine_roundtrip_keeps_terminators :
    ReadLines (ascii "AB\r\nCD\rEF\nGH") 4 ⟨0, 11⟩ =
        .ok ([⟨0, 3⟩, ⟨4, 6⟩, ⟨7, 9⟩, ⟨10, 11⟩], ⟨10, 11⟩) ∧
      [⟨0, 3⟩, ⟨4, 6⟩, ⟨7, 9⟩, ⟨10, 11⟩].map (lineBytes (ascii "AB\r\nCD\rEF\nGH")) =
        [some (ascii "AB\r\n"), some (ascii "CD\r"), some (ascii "EF\n"), some (ascii "GH")] ∧
      lineBytes (ascii "AB\r\nCD\rEF\nGH") ⟨0, 3⟩ ≠ some (ascii "AB") ∧
      joinLines [(ascii "A", .cr), ([], .lf)] = ascii "A\r\n" ∧
      ReadLines (ascii "A\r\n") 2 ⟨0, 2⟩ = .ok ([⟨0, 2⟩, ⟨2, 2⟩], ⟨2, 2⟩) ∧
      lineBytes (ascii "A\r\n") ⟨0, 2⟩ = some (ascii "A\r\n") := by
  decide

/-- C4 (amended): for every list of lines none of which contains `'\n'` or `'\r'`,
each followed by a terminator `\n`, `\r\n` or `\r` such that no bare `\r` is
directly followed by a `'\n'` byte, and every unterminated last part `tail`,
starting from the range that covers the whole concatenated buffer, the `k`-th
successive `ReadLine` call yields an output range whose bytes
`buffer[outLine.start .. outLine.end]` are the `k`-th line followed by its
terminator, in order; and when `tail` is not empty the next call yields `tail`. -/
theorem ReadLine_roundtrip_with_terminators (segs : List (List Byte × Terminator))
    (tail : List Byte) (hlines : ∀ seg ∈ segs, NoNewline seg.1) (htail : NoNewline tail)
    (hamb : CrNotBeforeLf tail segs) :
    ∃ outs r', ReadLines (joinLines segs ++ tail) segs.length
        ⟨0, ((joinLines segs ++ tail).length : Int) - 1⟩ = .ok (outs, r') ∧
      outs.map (lineBytes (joinLines segs ++ tail)) =
        segs.map (fun seg => some (seg.1 ++ seg.2.bytes)) ∧
      (tail ≠ [] → ∃ out r'', ReadLine (joinLines segs ++ tail) r' = .ok (out, r'') ∧
        lineBytes (joinLines segs ++ tail) out = some tail) := by
  obtain ⟨outs, r', h1, h2, h3⟩ := readLines_join tail segs [] hlines hamb
  simp only [List.nil_append, List.length_nil, Nat.cast_zero] at h1 h2 h3
  refine ⟨outs, r', h1, h2, fun ht => ?_⟩
  rw [h3 ht]
  have htl : 0 < tail.length := List.length_pos.2 ht
  have hlen : ((joinLines segs ++ tail).length : Int) =
      ((joinLines segs).length : Int) + (tail.length : Int) := by
    simp only [List.length_append]
    push_cast
    ring
  have hscan : ∀ i : Int, ((joinLines segs).length : Int) ≤ i →
      i ≤ ((joinLines segs ++ tail).length : Int) - 1 →
      ¬ IsNewlineAt (joinLines segs ++ tail) i := by
    intro i hi1 hi2 hnl
    have hj : (i - ((joinLines segs).length : Int)).toNat < tail.length := by omega
    have e : i = ((joinLines segs).length : Int) +
        (((i - ((joinLines segs).length : Int)).toNat : Nat) : Int) := by omega
    have hmem := htail _ (List.getElem_mem hj)
    unfold IsNewlineAt at hnl
    rw [e, readAt_append_offset, readAt_natCast hj] at hnl
    rcases hnl with h | h
    · exact hmem.1 (Except.ok.inj h)
    · exact hmem.2 (Except.ok.inj h)
  refine ⟨_, _, ReadLine_no_terminator (joinLines segs ++ tail)
    ⟨((joinLines segs).length : Int), ((joinLines segs ++ tail).length : Int) - 1⟩
    (by show (0 : Int) ≤ ((joinLines segs).length : Int); omega)
    (by show ((joinLines segs).length : Int) ≤ ((joinLines segs ++ tail).length : Int) - 1; omega)
    (by show ((joinLines segs ++ tail).length : Int) - 1 < _; omega) hscan, ?_⟩
  have := lineBytes_segment (joinLines segs) tail [] ht
  rw [List.append_nil] at this
  rw [hlen]
  exact this

set_option maxRecDepth 8000 in
/-- Witness of C4 (amended): the lines `AB`, `CD`, `EF` with the terminators
`\r\n`, `\r`, `\n` and the unterminated last part `GH`. -/
theorem ReadLine_roundtrip_with_terminators_witness :
    joinLines [(ascii "AB", .crlf), (ascii "CD", .cr), (ascii "EF", .lf)] ++ ascii "GH" =
        ascii "AB\r\nCD\rEF\nGH" ∧
    ∃ outs r', ReadLines
        (joinLines [(ascii "AB", .crlf), (ascii "CD", .cr), (ascii "EF", .lf)] ++ ascii "GH")
        [(ascii "AB", Terminator.crlf), (ascii "CD", .cr), (ascii "EF", .lf)].length
        ⟨0, ((joinLines [(ascii "AB", .crlf), (ascii "CD", .cr), (ascii "EF", .lf)] ++
          ascii "GH").length : Int) - 1⟩ = .ok (outs, r') ∧
      outs.map (lineBytes
          (joinLines [(ascii "AB", .crlf), (ascii "CD", .cr), (ascii "EF", .lf)] ++ ascii "GH")) =
        [(ascii "AB", Terminator.crlf), (ascii "CD", .cr), (ascii "EF", .lf)].map
          (fun seg => some (seg.1 ++ seg.2.bytes)) ∧
      (ascii "GH" ≠ [] → ∃ out r'', ReadLine
          (joinLines [(ascii "AB", .crlf), (ascii "CD", .cr), (ascii "EF", .lf)] ++ ascii "GH")
          r' = .ok (out, r'') ∧
        lineBytes
          (joinLines [(ascii "AB", .crlf), (ascii "CD", .cr), (ascii "EF", .lf)] ++ ascii "GH")
          out = some (ascii "GH")) :=
  ⟨by decide,
    ReadLine_roundtrip_with_terminators
      [(ascii "AB", .crlf), (ascii "CD", .cr), (ascii "EF", .lf)] (ascii "GH")
      (by unfold NoNewline; decide) (by unfold NoNewline; decide)
      (by simp only [CrNotBeforeLf]; decide)⟩

set_option maxRecDepth 8000 in
/-- C5 (counterexample): on the buffer `A\nB` with the range `[0, 2]` the output
range is `[0, 1]`, whose inclusive byte interval is `A\n`: it contains the
`'\n'` that ended the line. -/
theorem ReadLine_outLine_contains_terminator :
    ReadLine (ascii "A\nB") ⟨0, 2⟩ = .ok (⟨0, 1⟩, ⟨2, 2⟩) ∧
      lineBytes (ascii "A\nB") ⟨0, 1⟩ = some (ascii "A\n") ∧
      (10 : Byte) ∈ ascii "A\n" := by
  decide

/-- C5 (amended): for every buffer and range with `start <= end` inside the
buffer, the output range of a single `ReadLine` call starts at the old
`range.start` and, read as an inclusive interval, ends on the terminator that
ended the line: with `s` the first index in the window that holds `'\n'` or
`'\r'`, `outLine.end` is `s` for a `'\n'`, `s + 1` (the `'\n'`) for a `'\r\n'`
pair and `s` for a bare `'\r'`, so the terminator lies inside the interval; when
the window holds no terminator the output range is the whole window. -/
theorem ReadLine_outLine_ends_on_terminator (buffer : List Byte) (range : ArrayRange)
    (h0 : 0 ≤ range.start) (hse : range.start ≤ range.end_)
    (hend : range.end_ < (buffer.length : Int)) :
    ∃ out r', ReadLine buffer range = .ok (out, r') ∧ out.start = range.start ∧
      (((∀ i, range.start ≤ i → i ≤ range.end_ → ¬ IsNewlineAt buffer i) ∧
          out.end_ = range.end_) ∨
        ∃ s, range.start ≤ s ∧ s ≤ range.end_ ∧
          (∀ i, range.start ≤ i → i < s → ¬ IsNewlineAt buffer i) ∧
          s ≤ out.end_ ∧ out.end_ ≤ range.end_ ∧
          ((readAt buffer s = .ok 10 ∧ out.end_ = s) ∨
            (readAt buffer s = .ok 13 ∧ readAt buffer (s + 1) = .ok 10 ∧ out.end_ = s + 1) ∨
            (readAt buffer s = .ok 13 ∧ (s = range.end_ ∨ readAt buffer (s + 1) ≠ .ok 10) ∧
              out.end_ = s))) := by
  rcases ReadLine_cases h0 hse hend with ⟨hscan, h⟩ | ⟨s, hs1, hs2, hscan, h⟩
  · exact ⟨_, _, h, rfl, Or.inl ⟨hscan, rfl⟩⟩
  · rcases h with ⟨hb, h⟩ | ⟨hb, hlt, hn, h⟩ | ⟨hb, hlt, hn, h⟩ | ⟨hb, he, h⟩
    · exact ⟨_, _, h, rfl, Or.inr ⟨s, hs1, hs2, hscan, le_refl _, hs2, Or.inl ⟨hb, rfl⟩⟩⟩
    · exact ⟨_, _, h, rfl, Or.inr ⟨s, hs1, hs2, hscan, by simp, by simpa using hlt,
        Or.inr (Or.inl ⟨hb, hn, rfl⟩)⟩⟩
    · exact ⟨_, _, h, rfl, Or.inr ⟨s, hs1, hs2, hscan, le_refl _, hs2,
        Or.inr (Or.inr ⟨hb, Or.inr hn, rfl⟩)⟩⟩
    · exact ⟨_, _, h, rfl, Or.inr ⟨s, hs1, hs2, hscan, by simp [he], by simp,
        Or.inr (Or.inr ⟨hb, Or.inl he, by simp [he]⟩)⟩⟩

set_option maxRecDepth 8000 in
/-- Witness of C5 (amended): the buffer `A\nB` with the range `[0, 2]`. -/
theorem ReadLine_outLine_ends_on_terminator_witness :
    ∃ out r', ReadLine (ascii "A\nB") ⟨0, 2⟩ = .ok (out, r') ∧ out.start = 0 ∧
      (((∀ i, (0 : Int) ≤ i → i ≤ 2 → ¬ IsNewlineAt (ascii "A\nB") i) ∧ out.end_ = 2) ∨
        ∃ s, (0 : Int) ≤ s ∧ s ≤ 2 ∧
          (∀ i, (0 : Int) ≤ i → i < s → ¬ IsNewlineAt (ascii "A\nB") i) ∧
          s ≤ out.end_ ∧ out.end_ ≤ 2 ∧
          ((readAt (ascii "A\nB") s = .ok 10 ∧ out.end_ = s) ∨
            (readAt (ascii "A\nB") s = .ok 13 ∧ readAt (ascii "A\nB") (s + 1) = .ok 10 ∧
              out.end_ = s + 1) ∨
            (readAt (ascii "A\nB") s = .ok 13 ∧
              (s = 2 ∨ readAt (ascii "A\nB") (s + 1) ≠ .ok 10) ∧ out.end_ = s))) :=
  ReadLine_outLine_ends_on_terminator (ascii "A\nB") ⟨0, 2⟩ (by decide) (by decide) (by decide)

set_option maxRecDepth 8000 in
/-- C6 (counterexample): on the buffer `AB\r\nCD\rEF\nGH` with the whole-buffer
range, the fourth call leaves the range `[10, 11]` as it was, and the fifth call
returns the output range `[10, 11]` again, the two bytes `GH`, not a zero-length
line. -/
theorem ReadLine_fifth_call_not_empty :
    ReadLines (ascii "AB\r\nCD\rEF\nGH") 5 ⟨0, 11⟩ =
        .ok ([⟨0, 3⟩, ⟨4, 6⟩, ⟨7, 9⟩, ⟨10, 11⟩, ⟨10, 11⟩], ⟨10, 11⟩) ∧
      lineBytes (ascii "AB\r\nCD\rEF\nGH") ⟨10, 11⟩ = some (ascii "GH") := by
  decide

/-- C6 (amended): once a `ReadLine` call has returned the last line of the window
(its output range reaches `end`), every further `ReadLine` call on the range
completes without the fatal range assertion, leaves the range unchanged and
returns one and the same output range, which ends at `end` and holds at least
one byte (it is never a zero-length line). -/
theorem ReadLine_exhausted_repeats (buffer : List Byte) (range out r' : ArrayRange)
    (h0 : 0 ≤ range.start) (hse : range.start ≤ range.end_)
    (hend : range.end_ < (buffer.length : Int))
    (h : ReadLine buffer range = .ok (out, r')) (hlast : out.end_ = range.end_) :
    ∃ out', ReadLine buffer r' = .ok (out', r') ∧
      out'.start ≤ out'.end_ ∧ out'.end_ = range.end_ ∧
      ∀ n, ReadLines buffer n r' = .ok (List.replicate n out', r') := by
  have key : ∃ out', ReadLine buffer r' = .ok (out', r') ∧
      out'.start ≤ out'.end_ ∧ out'.end_ = range.end_ := by
    have hfix : readAt buffer range.end_ = .ok 10 ∨ readAt buffer range.end_ = .ok 13 →
        ReadLine buffer ⟨range.end_, range.end_⟩ =
          .ok (⟨range.end_, range.end_⟩, ⟨range.end_, range.end_⟩) := by
      intro hb
      have hsc : ∀ i, range.end_ ≤ i → i < range.end_ → ¬ IsNewlineAt buffer i := by
        intro i h1 h2
        omega
      rcases hb with hb | hb
      · have := ReadLine_at_lf buffer (⟨range.end_, range.end_⟩)
          (by simpa using (by omega : 0 ≤ range.end_)) (by simpa using hend) range.end_
          (le_refl _) (le_refl _) hsc hb
        simpa using this
      · exact ReadLine_at_cr_end buffer (⟨range.end_, range.end_⟩)
          (by simpa using (by omega : 0 ≤ range.end_)) (le_refl _) (by simpa using hend) hsc hb
    rcases ReadLine_cases h0 hse hend with ⟨_, h2⟩ | ⟨s, hs1, hs2, _, h2⟩
    · rw [h2] at h
      simp only [Except.ok.injEq, Prod.mk.injEq] at h
      obtain ⟨ho, hr⟩ := h
      subst hr
      exact ⟨_, h2, hse, rfl⟩
    · rcases h2 with ⟨hb, h2⟩ | ⟨hb, hlt, hn, h2⟩ | ⟨hb, hlt, hn, h2⟩ | ⟨hb, he, h2⟩
      · rw [h2] at h
        simp only [Except.ok.injEq, Prod.mk.injEq] at h
        obtain ⟨ho, hr⟩ := h
        subst ho hr
        have hs : s = range.end_ := hlast
        subst hs
        simp only [ne_eq, not_true_eq_false, if_false]
        exact ⟨_, hfix (Or.inl hb), le_refl _, rfl⟩
      · rw [h2] at h
        simp only [Except.ok.injEq, Prod.mk.injEq] at h
        obtain ⟨ho, hr⟩ := h
        subst ho hr
        have hs : s + 1 = range.end_ := hlast
        simp only [ne_eq, hs, not_true_eq_false, if_false]
        exact ⟨_, hfix (Or.inl (hs ▸ hn)), le_refl _, rfl⟩
      · rw [h2] at h
        simp only [Except.ok.injEq, Prod.mk.injEq] at h
        obtain ⟨ho, hr⟩ := h
        subst ho
        have hs : s = range.end_ := hlast
        omega
      · rw [h2] at h
        simp only [Except.ok.injEq, Prod.mk.injEq] at h
        obtain ⟨ho, hr⟩ := h
        subst hr
        exact ⟨_, hfix (Or.inr (he ▸ hb)), le_refl _, rfl⟩
  obtain ⟨out', h1, h2, h3⟩ := key
  exact ⟨out', h1, h2, h3, ReadLines_fixed h1⟩

set_option maxRecDepth 8000 in
/-- Witness of C6 (amended): on the buffer `AB\r\nCD\rEF\nGH` the call on the
range `[10, 11]` returns the last line `[10, 11]`, and so does every further
call. -/
theorem ReadLine_exhausted_repeats_witness :
    ∃ out', ReadLine (ascii "AB\r\nCD\rEF\nGH") ⟨10, 11⟩ = .ok (out', ⟨10, 11⟩) ∧
      out'.start ≤ out'.end_ ∧ out'.end_ = 11 ∧
      ∀ n, ReadLines (ascii "AB\r\nCD\rEF\nGH") n ⟨10, 11⟩ =
        .ok (List.replicate n out', ⟨10, 11⟩) :=
  ReadLine_exhausted_repeats (ascii "AB\r\nCD\rEF\nGH") ⟨10, 11⟩ ⟨10, 11⟩ ⟨10, 11⟩
    (by decide) (by decide) (by decide) (by decide) (by decide)

/-! ## The narrow readers under an unsigned `char` -/

theorem wrap32_natCast (n : Nat) (h : n < 4294967296) :
    wrap32 (n : Int) = toSigned 32 n := by
  unfold wrap32 toSigned
  norm_num
  split <;> omega

theorem wrap16_natCast (n : Nat) (h : n < 65536) :
    wrap16 (n : Int) = toSigned 16 n := by
  unfold wrap16 toSigned
  norm_num
  split <;> omega

/-- With an unsigned plain `char` the value `ReadInt32` computes from the bytes
`d0 .. d3` is their big-endian two's-complement value. -/
theorem decode32_unsigned (d0 d1 d2 d3 : Byte) :
    add32 (add32 (add32 (shl32 (charVal false d0) 24) (shl32 (charVal false d1) 16))
      (shl32 (charVal false d2) 8)) (shl32 (charVal false d3) 0)
      = toSigned 32 (beDecode [d0, d1, d2, d3]) := by
  have e0 := d0.isLt
  have e1 := d1.isLt
  have e2 := d2.isLt
  have e3 := d3.isLt
  have hlt : beDecode [d0, d1, d2, d3] < 4294967296 := by
    simp only [beDecode, List.foldl]
    omega
  have hcast : ((beDecode [d0, d1, d2, d3] : Nat) : Int) =
      (d0.val : Int) * 16777216 + (d1.val : Int) * 65536 + (d2.val : Int) * 256 +
        (d3.val : Int) := by
    simp only [beDecode, List.foldl]
    push_cast
    ring
  simp only [charVal, Bool.false_and, Bool.false_eq_true, if_false, add32, shl32,
    wrap32_add_wrap32_left, wrap32_add_wrap32_right]
  rw [← wrap32_natCast _ hlt, hcast]
  norm_num

/-- With an unsigned plain `char` the value `ReadInt16` computes from the bytes
`d0`, `d1` is their big-endian two's-complement value. -/
theorem decode16_unsigned (d0 d1 : Byte) :
    wrap16 (add32 (shl32 (wrap16 (charVal false d0)) 8) (shl32 (wrap16 (charVal false d1)) 0))
      = toSigned 16 (beDecode [d0, d1]) := by
  have e0 := d0.isLt
  have e1 := d1.isLt
  have hlt : beDecode [d0, d1] < 65536 := by
    simp only [beDecode, List.foldl]
    omega
  have hcast : ((beDecode [d0, d1] : Nat) : Int) = (d0.val : Int) * 256 + (d1.val : Int) := by
    simp only [beDecode, List.foldl]
    push_cast
    ring
  have w0 : wrap16 (charVal false d0) = (d0.val : Int) := by
    simp only [charVal, Bool.false_and, Bool.false_eq_true, if_false]
    exact wrap16_of_range (by omega) (by omega)
  have w1 : wrap16 (charVal false d1) = (d1.val : Int) := by
    simp only [charVal, Bool.false_and, Bool.false_eq_true, if_false]
    exact wrap16_of_range (by omega) (by omega)
  have s0 : shl32 (d0.val : Int) 8 = (d0.val : Int) * 256 := by
    unfold shl32; norm_num; exact wrap32_of_range (by omega) (by omega)
  have s1 : shl32 (d1.val : Int) 0 = (d1.val : Int) := by
    unfold shl32; norm_num; exact wrap32_of_range (by omega) (by omega)
  rw [w0, w1, s0, s1, ← wrap16_natCast _ hlt, hcast]
  unfold add32
  rw [wrap32_of_range (by omega) (by omega)]

/-! ## The fuel of the loops suffices -/

theorem readAt_ne_outOfFuel (buffer : List Byte) (i : Int) :
    readAt buffer i ≠ .error .outOfFuel := by
  unfold readAt
  split
  · split <;> simp
  · simp

theorem ne_outOfFuel_bind {α β : Type} {x : Except Fault α} {f : α → Except Fault β}
    (hx : x ≠ .error .outOfFuel) (hf : ∀ a, x = .ok a → f a ≠ .error .outOfFuel) :
    (x >>= f) ≠ .error .outOfFuel := by
  cases x with
  | error e =>
    intro h
    apply hx
    simpa [bind, Except.bind] using h
  | ok a => exact hf a rfl

theorem memcmp_ne_outOfFuel (s1 s2 : List Byte) : ∀ (n : Nat) (p1 p2 : Int),
    memcmp s1 p1 s2 p2 n ≠ .error .outOfFuel := by
  intro n
  induction n with
  | zero =>
    intro p1 p2
    simp [memcmp, pure, Except.pure]
  | succ n ih =>
    intro p1 p2
    unfold memcmp
    apply ne_outOfFuel_bind (readAt_ne_outOfFuel _ _)
    intro a _
    apply ne_outOfFuel_bind (readAt_ne_outOfFuel _ _)
    intro b _
    apply ne_outOfFuel_bind (ih _ _)
    intro c _
    simp [pure, Except.pure]

theorem readLineLoop_ne_outOfFuel (buffer : List Byte) (range : ArrayRange)
    (outStart end_ : Int) : ∀ (fuel : Nat) (p : Int), 1 ≤ fuel → end_ - p + 2 ≤ (fuel : Int) →
      ReadLine.loop buffer range outStart end_ fuel p ≠ .error .outOfFuel := by
  intro fuel
  induction fuel with
  | zero =>
    intro p h1 _
    omega
  | succ fuel ih =>
    intro p _ hf
    unfold ReadLine.loop
    split
    · apply ne_outOfFuel_bind (readAt_ne_outOfFuel _ _)
      intro c _
      split
      · split <;> simp [pure, Except.pure]
      · split
        · split
          · apply ne_outOfFuel_bind (readAt_ne_outOfFuel _ _)
            intro c2 _
            split
            · split <;> simp [pure, Except.pure]
            · simp [pure, Except.pure]
          · simp [pure, Except.pure]
        · exact ih (p + 1) (by omega) (by omega)
    · simp [pure, Except.pure]

theorem inner_ne_outOfFuel (buffer str : List Byte) (range : ArrayRange) (end_ : Int) :
    ∀ (fuel : Nat) (cmp pos : Int), 1 ≤ fuel → end_ - cmp + 1 ≤ (fuel : Int) →
      TryFindStringByLoop.inner buffer range str end_ fuel cmp pos ≠ .error .outOfFuel := by
  intro fuel
  induction fuel with
  | zero =>
    intro cmp pos h1 _
    omega
  | succ fuel ih =>
    intro cmp pos _ hf
    unfold TryFindStringByLoop.inner
    apply ne_outOfFuel_bind (readAt_ne_outOfFuel _ _)
    intro c _
    split
    · split <;> simp [pure, Except.pure]
    · dsimp only
      split
      · simp [pure, Except.pure]
      · apply ne_outOfFuel_bind (readAt_ne_outOfFuel _ _)
        intro b _
        split
        · simp [pure, Except.pure]
        · exact ih (cmp + 1) (pos + 1) (by omega) (by omega)

theorem outer_ne_outOfFuel (buffer str : List Byte) (range : ArrayRange) (end_ : Int)
    (first : Byte) : ∀ (fuel : Nat) (p pos : Int), 1 ≤ fuel → end_ - p + 2 ≤ (fuel : Int) →
      TryFindStringByLoop.outer buffer range str end_ first fuel p pos ≠ .error .outOfFuel := by
  intro fuel
  induction fuel with
  | zero =>
    intro p pos h1 _
    omega
  | succ fuel ih =>
    intro p pos _ hf
    unfold TryFindStringByLoop.outer
    split
    · apply ne_outOfFuel_bind (readAt_ne_outOfFuel _ _)
      intro b _
      split
      · apply ne_outOfFuel_bind
          (inner_ne_outOfFuel buffer str range end_ (fuel + 1) p pos (by omega)
            (by push_cast; omega))
        intro res _
        cases res with
        | found r => simp [pure, Except.pure]
        | notFound => simp [pure, Except.pure]
        | brk pos' => exact ih (p + 1) pos' (by omega) (by omega)
      · exact ih (p + 1) pos (by omega) (by omega)
    · simp [pure, Except.pure]

theorem memcmpLoop_ne_outOfFuel (buffer str : List Byte) (range : ArrayRange) (len2 : Int)
    (hlen2 : 1 ≤ len2) : ∀ (fuel : Nat) (p len1 : Int), 1 ≤ fuel → len1 + 1 ≤ (fuel : Int) →
      TryFindStringByMemcmp.loop buffer range str len2 fuel p len1 ≠ .error .outOfFuel := by
  intro fuel
  induction fuel with
  | zero =>
    intro p len1 h1 _
    omega
  | succ fuel ih =>
    intro p len1 _ hf
    unfold TryFindStringByMemcmp.loop
    split
    · apply ne_outOfFuel_bind (memcmp_ne_outOfFuel _ _ _ _ _)
      intro c _
      split
      · dsimp only
        split <;> simp [pure, Except.pure]
      · exact ih (p + 1) (len1 - 1) (by omega) (by omega)
    · simp [pure, Except.pure]

/-- The fuel that the embedded functions hand to their loops is never used up:
each of them either returns or ends in the range assertion or in an
out-of-bounds read. -/
theorem fuel_suffices (buffer str : List Byte) (range : ArrayRange) :
    ReadLine buffer range ≠ .error .outOfFuel ∧
    TryFindStringByLoop buffer range str ≠ .error .outOfFuel ∧
    TryFindStringByMemcmp buffer range str ≠ .error .outOfFuel := by
  have hcr : CheckRange range ≠ .error .outOfFuel := by
    unfold CheckRange
    split <;> simp
  have hse : ∀ u, CheckRange range = .ok u → range.start ≤ range.end_ :=
    fun u h => CheckRange_eq_ok.1 h
  refine ⟨?_, ?_, ?_⟩
  · unfold ReadLine
    apply ne_outOfFuel_bind hcr
    intro u hu
    have := hse u hu
    exact readLineLoop_ne_outOfFuel _ _ _ _ _ _ (by omega) (by omega)
  · unfold TryFindStringByLoop
    apply ne_outOfFuel_bind hcr
    intro u hu
    have := hse u hu
    apply ne_outOfFuel_bind (readAt_ne_outOfFuel _ _)
    intro first _
    exact outer_ne_outOfFuel _ _ _ _ _ _ _ _ (by omega) (by omega)
  · unfold TryFindStringByMemcmp
    apply ne_outOfFuel_bind hcr
    intro u hu
    have := hse u hu
    by_cases h0 : strlen (cstr str) = 0
    · have hfu : (range.end_ - range.start).toNat + 2 = ((range.end_ - range.start).toNat + 1) + 1 := rfl
      rw [h0, hfu]
      unfold TryFindStringByMemcmp.loop
      have hge : range.end_ - range.start + 1 ≥ ((0 : Nat) : Int) := by omega
      simp only [hge, if_true, Int.toNat_ofNat, memcmp, bind, Except.bind, pure, Except.pure]
      split <;> simp
    · exact memcmpLoop_ne_outOfFuel _ _ _ _ (by omega) _ _ _ (by omega) (by omega)

/-! ## Further claims on the line reader -/

theorem ReadLine_outLine_start (buffer : List Byte) (range : ArrayRange)
    (h0 : 0 ≤ range.start) (hse : range.start ≤ range.end_)
    (hend : range.end_ < (buffer.length : Int)) :
    ∃ out r', ReadLine buffer range = .ok (out, r') ∧ out.start = range.start := by
  rcases ReadLine_cases h0 hse hend with ⟨_, h⟩ | ⟨s, _, _, _, h⟩
  · exact ⟨_, _, h, rfl⟩
  · rcases h with ⟨_, h⟩ | ⟨_, _, _, h⟩ | ⟨_, _, _, h⟩ | ⟨_, _, h⟩ <;> exact ⟨_, _, h, rfl⟩

/-- C14: for every buffer and range with `start <= end` inside the buffer, if the
first byte of the window that is `'\n'` or `'\r'` is a `'\n'` at index `s`, then
`ReadLine` sets `outLine = (old start, s)`, sets `range.start` to `s + 1` when
`s < end` and to `end` when `s = end`, and leaves `range.end` unchanged. -/
theorem ReadLine_first_terminator_lf (buffer : List Byte) (range : ArrayRange)
    (h0 : 0 ≤ range.start) (hend : range.end_ < (buffer.length : Int)) (s : Int)
    (hs : range.start ≤ s) (hse : s ≤ range.end_)
    (hscan : ∀ i, range.start ≤ i → i < s → ¬ IsNewlineAt buffer i)
    (h : readAt buffer s = .ok 10) :
    ∃ out r', ReadLine buffer range = .ok (out, r') ∧ out = ⟨range.start, s⟩ ∧
      (s < range.end_ → r'.start = s + 1) ∧ (s = range.end_ → r'.start = range.end_) ∧
      r'.end_ = range.end_ := by
  refine ⟨_, _, ReadLine_at_lf buffer range h0 hend s hs hse hscan h, rfl, ?_, ?_, rfl⟩
  · intro hlt
    have hne : s ≠ range.end_ := by omega
    simp only [ne_eq, hne, not_false_eq_true, if_true]
  · intro he
    simp only [ne_eq, he, not_true_eq_false, if_false]

set_option maxRecDepth 8000 in
/-- Witness of C14: the buffer `AB\nC` with the range `[0, 3]`; the `'\n'` is at
index `2`. -/
theorem ReadLine_first_terminator_lf_witness :
    ∃ out r', ReadLine (ascii "AB\nC") ⟨0, 3⟩ = .ok (out, r') ∧ out = ⟨0, 2⟩ ∧
      ((2 : Int) < 3 → r'.start = 2 + 1) ∧ ((2 : Int) = 3 → r'.start = 3) ∧ r'.end_ = 3 :=
  ReadLine_first_terminator_lf (ascii "AB\nC") ⟨0, 3⟩ (by decide) (by decide) 2 (by decide)
    (by decide)
    (fun i h1 h2 => by
      have hi : i = 0 ∨ i = 1 := by
        have h1' : (0 : Int) ≤ i := h1
        omega
      rcases hi with hi | hi <;> subst hi <;> unfold IsNewlineAt <;> decide)
    (by decide)

/-- C15: for every buffer and range with `start <= end` inside the buffer, if the
first byte of the window that is `'\n'` or `'\r'` is a `'\r'` at index `s`, then
(i) if `s < end` and `buffer[s + 1]` is `'\n'`, `outLine = (old start, s + 1)` and
`range.start` becomes `s + 2` when `s + 1 < end` and `end` when `s + 1 = end`;
(ii) if `s < end` and `buffer[s + 1]` is not `'\n'`, `outLine = (old start, s)`
and `range.start` becomes `s + 1`; (iii) if `s = end`, `outLine = (old start, end)`
and `range.start` becomes `end`.  In all three cases `range.end` is unchanged. -/
theorem ReadLine_first_terminator_cr (buffer : List Byte) (range : ArrayRange)
    (h0 : 0 ≤ range.start) (hend : range.end_ < (buffer.length : Int)) (s : Int)
    (hs : range.start ≤ s) (hse : s ≤ range.end_)
    (hscan : ∀ i, range.start ≤ i → i < s → ¬ IsNewlineAt buffer i)
    (h : readAt buffer s = .ok 13) :
    (s < range.end_ → readAt buffer (s + 1) = .ok 10 →
      ∃ r', ReadLine buffer range = .ok (⟨range.start, s + 1⟩, r') ∧
        (s + 1 < range.end_ → r'.start = s + 2) ∧ (s + 1 = range.end_ → r'.start = range.end_) ∧
        r'.end_ = range.end_) ∧
    (s < range.end_ → readAt buffer (s + 1) ≠ .ok 10 →
      ReadLine buffer range = .ok (⟨range.start, s⟩, ⟨s + 1, range.end_⟩)) ∧
    (s = range.end_ →
      ReadLine buffer range = .ok (⟨range.start, range.end_⟩, ⟨range.end_, range.end_⟩)) := by
  refine ⟨?_, ?_, ?_⟩
  · intro hlt h2
    refine ⟨_, ReadLine_at_crlf buffer range h0 hend s hs hlt hscan h h2, ?_, ?_, rfl⟩
    · intro hlt2
      have hne : s + 1 ≠ range.end_ := by omega
      simp only [ne_eq, hne, not_false_eq_true, if_true]
      omega
    · intro he
      simp only [ne_eq, he, not_true_eq_false, if_false]
  · intro hlt h2
    exact ReadLine_at_cr buffer range h0 hend s hs hlt hscan h h2
  · intro he
    subst he
    exact ReadLine_at_cr_end buffer range h0 hs hend hscan h

set_option maxRecDepth 8000 in
/-- Witness of C15: the buffer `AB\r\nCD\rEF\r`; the three cases at the `'\r'` of
index `2` (range `[0, 9]`), of index `6` (range `[4, 9]`) and of index `9`
(range `[7, 9]`). -/
theorem ReadLine_first_terminator_cr_witness :
    (∃ r', ReadLine (ascii "AB\r\nCD\rEF\r") ⟨0, 9⟩ = .ok (⟨0, 2 + 1⟩, r') ∧
        ((2 : Int) + 1 < 9 → r'.start = 2 + 2) ∧ ((2 : Int) + 1 = 9 → r'.start = 9) ∧
        r'.end_ = 9) ∧
      ReadLine (ascii "AB\r\nCD\rEF\r") ⟨4, 9⟩ = .ok (⟨4, 6⟩, ⟨6 + 1, 9⟩) ∧
      ReadLine (ascii "AB\r\nCD\rEF\r") ⟨7, 9⟩ = .ok (⟨7, 9⟩, ⟨9, 9⟩) :=
  ⟨(ReadLine_first_terminator_cr (ascii "AB\r\nCD\rEF\r") ⟨0, 9⟩ (by decide) (by decide) 2
      (by decide) (by decide)
      (fun i h1 h2 => by
        have hi : i = 0 ∨ i = 1 := by
          have h1' : (0 : Int) ≤ i := h1
          omega
        rcases hi with hi | hi <;> subst hi <;> unfold IsNewlineAt <;> decide)
      (by decide)).1 (by decide) (by decide),
    (ReadLine_first_terminator_cr (ascii "AB\r\nCD\rEF\r") ⟨4, 9⟩ (by decide) (by decide) 6
      (by decide) (by decide)
      (fun i h1 h2 => by
        have hi : i = 4 ∨ i = 5 := by
          have h1' : (4 : Int) ≤ i := h1
          omega
        rcases hi with hi | hi <;> subst hi <;> unfold IsNewlineAt <;> decide)
      (by decide)).2.1 (by decide) (by decide),
    (ReadLine_first_terminator_cr (ascii "AB\r\nCD\rEF\r") ⟨7, 9⟩ (by decide) (by decide) 9
      (by decide) (by decide)
      (fun i h1 h2 => by
        have hi : i = 7 ∨ i = 8 := by
          have h1' : (7 : Int) ≤ i := h1
          omega
        rcases hi with hi | hi <;> subst hi <;> unfold IsNewlineAt <;> decide)
      (by decide)).2.2 (by decide)⟩

/-- C16: for every buffer and range with `start <= end` inside the buffer whose
window contains neither `'\n'` nor `'\r'`, `ReadLine` sets `outLine = (start, end)`,
the whole remaining window, and leaves `range.start` and `range.end` unchanged;
a second `ReadLine` call on the same range returns the same `outLine` again. -/
theorem ReadLine_without_terminator (buffer : List Byte) (range : ArrayRange)
    (h0 : 0 ≤ range.start) (hse : range.start ≤ range.end_)
    (hend : range.end_ < (buffer.length : Int))
    (hscan : ∀ i, range.start ≤ i → i ≤ range.end_ → ¬ IsNewlineAt buffer i) :
    ReadLine buffer range = .ok (⟨range.start, range.end_⟩, range) ∧
      ReadLines buffer 2 range =
        .ok ([⟨range.start, range.end_⟩, ⟨range.start, range.end_⟩], range) := by
  have h := ReadLine_no_terminator buffer range h0 hse hend hscan
  exact ⟨h, ReadLines_fixed h 2⟩

set_option maxRecDepth 8000 in
/-- Witness of C16: the buffer `GH` with the range `[0, 1]`. -/
theorem ReadLine_without_terminator_witness :
    ReadLine (ascii "GH") ⟨0, 1⟩ = .ok (⟨0, 1⟩, ⟨0, 1⟩) ∧
      ReadLines (ascii "GH") 2 ⟨0, 1⟩ = .ok ([⟨0, 1⟩, ⟨0, 1⟩], ⟨0, 1⟩) :=
  ReadLine_without_terminator (ascii "GH") ⟨0, 1⟩ (by decide) (by decide) (by decide)
    (fun i h1 h2 => by
      have hi : i = 0 ∨ i = 1 := by
        have h1' : (0 : Int) ≤ i := h1
        have h2' : i ≤ (1 : Int) := h2
        omega
      rcases hi with hi | hi <;> subst hi <;> unfold IsNewlineAt <;> decide)

/-- C18: for every buffer and range with `start <= end` inside the buffer,
`outLine.start` equals the old `range.start` and `old start <= outLine.end <= end`;
and whenever `ReadLine` stops at a terminator whose last byte lies strictly
before `end` (`outLine.end < end`), the new `range.start` equals
`outLine.end + 1`, and the next call's `outLine` begins at `outLine.end + 1`:
no gap and no overlap. -/
theorem ReadLine_outLines_tile (buffer : List Byte) (range : ArrayRange)
    (h0 : 0 ≤ range.start) (hse : range.start ≤ range.end_)
    (hend : range.end_ < (buffer.length : Int)) :
    ∃ out r', ReadLine buffer range = .ok (out, r') ∧ out.start = range.start ∧
      range.start ≤ out.end_ ∧ out.end_ ≤ range.end_ ∧ r'.end_ = range.end_ ∧
      (out.end_ < range.end_ →
        IsNewlineAt buffer out.end_ ∧ r'.start = out.end_ + 1 ∧
        ∃ out2 r2, ReadLine buffer r' = .ok (out2, r2) ∧ out2.start = out.end_ + 1) := by
  have hnext : ∀ t : Int, range.start ≤ t → t < range.end_ →
      ∃ out2 r2, ReadLine buffer ⟨t + 1, range.end_⟩ = .ok (out2, r2) ∧ out2.start = t + 1 := by
    intro t ht1 ht2
    exact ReadLine_outLine_start buffer ⟨t + 1, range.end_⟩
      (by show (0 : Int) ≤ t + 1; omega) (by show t + 1 ≤ range.end_; omega) hend
  rcases ReadLine_cases h0 hse hend with ⟨_, h⟩ | ⟨s, hs1, hs2, _, h⟩
  · refine ⟨_, _, h, rfl, hse, le_refl _, rfl, ?_⟩
    intro hlt
    exact absurd hlt (lt_irrefl _)
  · rcases h with ⟨hb, h⟩ | ⟨hb, hlt, hn, h⟩ | ⟨hb, hlt, hn, h⟩ | ⟨hb, he, h⟩
    · refine ⟨_, _, h, rfl, hs1, hs2, rfl, ?_⟩
      intro hlt
      have hne : s ≠ range.end_ := by
        have : s < range.end_ := hlt
        omega
      simp only [ne_eq, hne, not_false_eq_true, if_true]
      exact ⟨Or.inl hb, trivial, hnext s hs1 hlt⟩
    · refine ⟨_, _, h, rfl, by show range.start ≤ s + 1; omega,
        by show s + 1 ≤ range.end_; omega, rfl, ?_⟩
      intro hlt2
      have hlt3 : s + 1 < range.end_ := hlt2
      have hne : s + 1 ≠ range.end_ := by omega
      simp only [ne_eq, hne, not_false_eq_true, if_true]
      exact ⟨Or.inl hn, trivial, hnext (s + 1) (by omega) hlt3⟩
    · refine ⟨_, _, h, rfl, hs1, hs2, rfl, ?_⟩
      intro _
      exact ⟨Or.inr hb, rfl, hnext s hs1 hlt⟩
    · refine ⟨_, _, h, rfl, hse, le_refl _, rfl, ?_⟩
      intro hlt
      exact absurd hlt (lt_irrefl _)

set_option maxRecDepth 8000 in
/-- Witness of C18: the buffer `AB\r\nCD\rEF\nGH` with the whole-buffer range; the
first output range is `[0, 3]` and the next one begins at `4`. -/
theorem ReadLine_outLines_tile_witness :
    ReadLines (ascii "AB\r\nCD\rEF\nGH") 2 ⟨0, 11⟩ = .ok ([⟨0, 3⟩, ⟨4, 6⟩], ⟨7, 11⟩) ∧
    ∃ out r', ReadLine (ascii "AB\r\nCD\rEF\nGH") ⟨0, 11⟩ = .ok (out, r') ∧ out.start = 0 ∧
      (0 : Int) ≤ out.end_ ∧ out.end_ ≤ 11 ∧ r'.end_ = 11 ∧
      (out.end_ < 11 →
        IsNewlineAt (ascii "AB\r\nCD\rEF\nGH") out.end_ ∧ r'.start = out.end_ + 1 ∧
        ∃ out2 r2, ReadLine (ascii "AB\r\nCD\rEF\nGH") r' = .ok (out2, r2) ∧
          out2.start = out.end_ + 1) :=
  ⟨by decide,
    ReadLine_outLines_tile (ascii "AB\r\nCD\rEF\nGH") ⟨0, 11⟩ (by decide) (by decide)
      (by decide)⟩

/-! ## Further claims on the integer readers -/

theorem ne_rangeAssert_bind {α β : Type} {x : Except Fault α} {f : α → Except Fault β}
    (hx : x ≠ .error .rangeAssert) (hf : ∀ a, x = .ok a → f a ≠ .error .rangeAssert) :
    (x >>= f) ≠ .error .rangeAssert := by
  cases x with
  | error e =>
    intro h
    apply hx
    simpa [bind, Except.bind] using h
  | ok a => exact hf a rfl

theorem readAt_ok_bounds {buffer : List Byte} {i : Int} {d : Byte}
    (h : readAt buffer i = .ok d) : 0 ≤ i ∧ i < (buffer.length : Int) := by
  obtain ⟨h0, hb⟩ := readAt_eq_ok.1 h
  have := (List.getElem?_eq_some.1 hb).1
  omega

/-! ### `ReadInt64` -/

theorem ReadInt64_ok_range {cs : Bool} {buffer : List Byte} {range : ArrayRange} {v : Int}
    {r' : ArrayRange} (h : ReadInt64 cs buffer range = .ok (v, r')) :
    range.start ≤ range.end_ ∧ wrap32 (range.start + 8) ≤ range.end_ ∧
      r' = ⟨wrap32 (range.start + 8), range.end_⟩ ∧ 0 ≤ range.start ∧
      range.start + 8 ≤ (buffer.length : Int) := by
  unfold ReadInt64 at h
  simp only [bind_eq_ok, pure, Except.pure, Except.ok.injEq, Prod.mk.injEq] at h
  obtain ⟨_, hc1, _, hc2, d0, h0, d1, h1, d2, h2, d3, h3, d4, h4, d5, h5, d6, h6, d7, h7,
    _, hr⟩ := h
  have b0 := readAt_ok_bounds h0
  have b7 := readAt_ok_bounds h7
  exact ⟨CheckRange_eq_ok.1 hc1, CheckRange_eq_ok.1 hc2, hr.symm, by omega, by omega⟩

theorem ReadInt64_no_assert (cs : Bool) (buffer : List Byte) (range : ArrayRange)
    (h1 : range.start ≤ range.end_) (h2 : wrap32 (range.start + 8) ≤ range.end_) :
    ReadInt64 cs buffer range ≠ .error .rangeAssert := by
  unfold ReadInt64
  have c2 : CheckRange ⟨wrap32 (range.start + 8), range.end_⟩ = .ok () := CheckRange_ok h2
  simp only [CheckRange_ok h1, c2, bind, Except.bind]
  repeat' (first
    | (apply ne_rangeAssert_bind (readAt_ne_rangeAssert _ _); intro _ _)
    | simp [pure, Except.pure])

theorem ReadInt64_ok_of (cs : Bool) (buffer : List Byte) (range : ArrayRange)
    (h1 : range.start ≤ range.end_) (h2 : wrap32 (range.start + 8) ≤ range.end_)
    (h0 : 0 ≤ range.start) (hb : range.start + 8 ≤ (buffer.length : Int)) :
    ∃ v, ReadInt64 cs buffer range = .ok (v, ⟨wrap32 (range.start + 8), range.end_⟩) := by
  obtain ⟨d0, e0⟩ := readAt_inBounds buffer (range.start + 0) (by omega) (by omega)
  obtain ⟨d1, e1⟩ := readAt_inBounds buffer (range.start + 1) (by omega) (by omega)
  obtain ⟨d2, e2⟩ := readAt_inBounds buffer (range.start + 2) (by omega) (by omega)
  obtain ⟨d3, e3⟩ := readAt_inBounds buffer (range.start + 3) (by omega) (by omega)
  obtain ⟨d4, e4⟩ := readAt_inBounds buffer (range.start + 4) (by omega) (by omega)
  obtain ⟨d5, e5⟩ := readAt_inBounds buffer (range.start + 5) (by omega) (by omega)
  obtain ⟨d6, e6⟩ := readAt_inBounds buffer (range.start + 6) (by omega) (by omega)
  obtain ⟨d7, e7⟩ := readAt_inBounds buffer (range.start + 7) (by omega) (by omega)
  have c2 : CheckRange ⟨wrap32 (range.start + 8), range.end_⟩ = .ok () := CheckRange_ok h2
  simp only [ReadInt64, CheckRange_ok h1, c2, e0, e1, e2, e3, e4, e5, e6, e7, bind,
    Except.bind, pure, Except.pure]
  exact ⟨_, rfl⟩

/-! ### `ReadInt8` -/

theorem ReadInt8_ok_range {cs : Bool} {buffer : List Byte} {range : ArrayRange} {v : Int}
    {r' : ArrayRange} (h : ReadInt8 cs buffer range = .ok (v, r')) :
    range.start ≤ range.end_ ∧ wrap32 (range.start + 1) ≤ range.end_ ∧
      r' = ⟨wrap32 (range.start + 1), range.end_⟩ ∧ 0 ≤ range.start ∧
      range.start + 1 ≤ (buffer.length : Int) := by
  unfold ReadInt8 at h
  simp only [bind_eq_ok, pure, Except.pure, Except.ok.injEq, Prod.mk.injEq] at h
  obtain ⟨_, hc1, _, hc2, d0, h0, _, hr⟩ := h
  have b0 := readAt_ok_bounds h0
  exact ⟨CheckRange_eq_ok.1 hc1, CheckRange_eq_ok.1 hc2, hr.symm, by omega, by omega⟩

theorem ReadInt8_no_assert (cs : Bool) (buffer : List Byte) (range : ArrayRange)
    (h1 : range.start ≤ range.end_) (h2 : wrap32 (range.start + 1) ≤ range.end_) :
    ReadInt8 cs buffer range ≠ .error .rangeAssert := by
  unfold ReadInt8
  have c2 : CheckRange ⟨wrap32 (range.start + 1), range.end_⟩ = .ok () := CheckRange_ok h2
  simp only [CheckRange_ok h1, c2, bind, Except.bind]
  repeat' (first
    | (apply ne_rangeAssert_bind (readAt_ne_rangeAssert _ _); intro _ _)
    | simp [pure, Except.pure])

theorem ReadInt8_ok_of (cs : Bool) (buffer : List Byte) (range : ArrayRange)
    (h1 : range.start ≤ range.end_) (h2 : wrap32 (range.start + 1) ≤ range.end_)
    (h0 : 0 ≤ range.start) (hb : range.start + 1 ≤ (buffer.length : Int)) :
    ∃ v, ReadInt8 cs buffer range = .ok (v, ⟨wrap32 (range.start + 1), range.end_⟩) := by
  obtain ⟨d0, e0⟩ := readAt_inBounds buffer (range.start + 0) (by omega) (by omega)
  have c2 : CheckRange ⟨wrap32 (range.start + 1), range.end_⟩ = .ok () := CheckRange_ok h2
  simp only [ReadInt8, CheckRange_ok h1, c2, e0, bind, Except.bind, pure, Except.pure]
  exact ⟨_, rfl⟩

/-! ### `ReadInt32` -/

theorem ReadInt32_ok_range {cs : Bool} {buffer : List Byte} {range : ArrayRange} {v : Int}
    {r' : ArrayRange} (h : ReadInt32 cs buffer range = .ok (v, r')) :
    range.start ≤ range.end_ ∧ wrap32 (range.start + 4) ≤ range.end_ ∧
      r' = ⟨wrap32 (range.start + 4), range.end_⟩ ∧ 0 ≤ range.start ∧
      range.start + 4 ≤ (buffer.length : Int) := by
  unfold ReadInt32 at h
  simp only [bind_eq_ok, pure, Except.pure, Except.ok.injEq, Prod.mk.injEq] at h
  obtain ⟨_, hc1, d0, h0, d1, h1, d2, h2, d3, h3, _, hc2, _, hr⟩ := h
  have b0 := readAt_ok_bounds h0
  have b3 := readAt_ok_bounds h3
  exact ⟨CheckRange_eq_ok.1 hc1, CheckRange_eq_ok.1 hc2, hr.symm, by omega, by omega⟩

theorem ReadInt32_no_assert (cs : Bool) (buffer : List Byte) (range : ArrayRange)
    (h1 : range.start ≤ range.end_) (h2 : wrap32 (range.start + 4) ≤ range.end_) :
    ReadInt32 cs buffer range ≠ .error .rangeAssert := by
  unfold ReadInt32
  have c2 : CheckRange ⟨wrap32 (range.start + 4), range.end_⟩ = .ok () := CheckRange_ok h2
  simp only [CheckRange_ok h1, c2, bind, Except.bind]
  repeat' (first
    | (apply ne_rangeAssert_bind (readAt_ne_rangeAssert _ _); intro _ _)
    | simp [pure, Except.pure])

theorem ReadInt32_ok_of (cs : Bool) (buffer : List Byte) (range : ArrayRange)
    (h1 : range.start ≤ range.end_) (h2 : wrap32 (range.start + 4) ≤ range.end_)
    (h0 : 0 ≤ range.start) (hb : range.start + 4 ≤ (buffer.length : Int)) :
    ∃ v, ReadInt32 cs buffer range = .ok (v, ⟨wrap32 (range.start + 4), range.end_⟩) := by
  obtain ⟨d0, e0⟩ := readAt_inBounds buffer (range.start + 0) (by omega) (by omega)
  obtain ⟨d1, e1⟩ := readAt_inBounds buffer (range.start + 1) (by omega) (by omega)
  obtain ⟨d2, e2⟩ := readAt_inBounds buffer (range.start + 2) (by omega) (by omega)
  obtain ⟨d3, e3⟩ := readAt_inBounds buffer (range.start + 3) (by omega) (by omega)
  have c2 : CheckRange ⟨wrap32 (range.start + 4), range.end_⟩ = .ok () := CheckRange_ok h2
  simp only [ReadInt32, CheckRange_ok h1, c2, e0, e1, e2, e3, bind, Except.bind, pure,
    Except.pure]
  exact ⟨_, rfl⟩

/-! ### `ReadInt16` -/

theorem ReadInt16_ok_range {cs : Bool} {buffer : List Byte} {range : ArrayRange} {v : Int}
    {r' : ArrayRange} (h : ReadInt16 cs buffer range = .ok (v, r')) :
    range.start ≤ range.end_ ∧ wrap32 (range.start + 2) ≤ range.end_ ∧
      r' = ⟨wrap32 (range.start + 2), range.end_⟩ ∧ 0 ≤ range.start ∧
      range.start + 2 ≤ (buffer.length : Int) := by
  unfold ReadInt16 at h
  simp only [bind_eq_ok, pure, Except.pure, Except.ok.injEq, Prod.mk.injEq] at h
  obtain ⟨_, hc1, d0, h0, d1, h1, _, hc2, _, hr⟩ := h
  have b0 := readAt_ok_bounds h0
  have b1 := readAt_ok_bounds h1
  exact ⟨CheckRange_eq_ok.1 hc1, CheckRange_eq_ok.1 hc2, hr.symm, by omega, by omega⟩

theorem ReadInt16_no_assert (cs : Bool) (buffer : List Byte) (range : ArrayRange)
    (h1 : range.start ≤ range.end_) (h2 : wrap32 (range.start + 2) ≤ range.end_) :
    ReadInt16 cs buffer range ≠ .error .rangeAssert := by
  unfold ReadInt16
  have c2 : CheckRange ⟨wrap32 (range.start + 2), range.end_⟩ = .ok () := CheckRange_ok h2
  simp only [CheckRange_ok h1, c2, bind, Except.bind]
  repeat' (first
    | (apply ne_rangeAssert_bind (readAt_ne_rangeAssert _ _); intro _ _)
    | simp [pure, Except.pure])

theorem ReadInt16_ok_of (cs : Bool) (buffer : List Byte) (range : ArrayRange)
    (h1 : range.start ≤ range.end_) (h2 : wrap32 (range.start + 2) ≤ range.end_)
    (h0 : 0 ≤ range.start) (hb : range.start + 2 ≤ (buffer.length : Int)) :
    ∃ v, ReadInt16 cs buffer range = .ok (v, ⟨wrap32 (range.start + 2), range.end_⟩) := by
  obtain ⟨d0, e0⟩ := readAt_inBounds buffer (range.start + 0) (by omega) (by omega)
  obtain ⟨d1, e1⟩ := readAt_inBounds buffer (range.start + 1) (by omega) (by omega)
  have c2 : CheckRange ⟨wrap32 (range.start + 2), range.end_⟩ = .ok () := CheckRange_ok h2
  simp only [ReadInt16, CheckRange_ok h1, c2, e0, e1, bind, Except.bind, pure, Except.pure]
  exact ⟨_, rfl⟩

/-! ### A window without room -/

theorem readAt_replicate (n : Nat) (b : Byte) (i : Int) (h0 : 0 ≤ i) (h1 : i < (n : Int)) :
    readAt (List.replicate n b) i = .ok b := by
  rw [readAt_eq_ok]
  refine ⟨h0, ?_⟩
  rw [List.getElem?_replicate]
  have hlt : i.toNat < n := by omega
  simp [hlt]

set_option maxRecDepth 8000 in
theorem ReadInt64_zeros_at (n : Nat) (range : ArrayRange) (h1 : range.start ≤ range.end_)
    (h2 : wrap32 (range.start + 8) ≤ range.end_) (h0 : 0 ≤ range.start)
    (hb : range.start + 8 ≤ (n : Int)) :
    ReadInt64 false (List.replicate n 0) range =
      .ok (0, ⟨wrap32 (range.start + 8), range.end_⟩) := by
  have e0 := readAt_replicate n 0 (range.start + 0) (by omega) (by omega)
  have e1 := readAt_replicate n 0 (range.start + 1) (by omega) (by omega)
  have e2 := readAt_replicate n 0 (range.start + 2) (by omega) (by omega)
  have e3 := readAt_replicate n 0 (range.start + 3) (by omega) (by omega)
  have e4 := readAt_replicate n 0 (range.start + 4) (by omega) (by omega)
  have e5 := readAt_replicate n 0 (range.start + 5) (by omega) (by omega)
  have e6 := readAt_replicate n 0 (range.start + 6) (by omega) (by omega)
  have e7 := readAt_replicate n 0 (range.start + 7) (by omega) (by omega)
  have c2 : CheckRange ⟨wrap32 (range.start + 8), range.end_⟩ = .ok () := CheckRange_ok h2
  simp only [ReadInt64, CheckRange_ok h1, c2, e0, e1, e2, e3, e4, e5, e6, e7, bind,
    Except.bind, pure, Except.pure]
  have hv : add64 (add64 (add64 (add64 (add64 (add64 (add64
      (shl64 (and0xff (charVal false 0)) 56)
      (shl64 (and0xff (charVal false 0)) 48))
      (shl64 (and0xff (charVal false 0)) 40))
      (shl64 (and0xff (charVal false 0)) 32))
      (shl64 (and0xff (charVal false 0)) 24))
      (shl32 (and0xff (charVal false 0)) 16))
      (shl32 (and0xff (charVal false 0)) 8))
      (shl32 (and0xff (charVal false 0)) 0) = 0 := by decide
  rw [hv]

/-- C11 (counterexample): two windows with `start <= end` and fewer than `N`
unread bytes on which the reader does not end in the fatal range assertion.
On a buffer of `2147483652` zero bytes the range `[2147483644, 2147483647]` has
four unread bytes, yet `ReadInt64` returns a value: `start += 8` wraps to
`-2147483644`, which passes the post-read check.  On the three bytes `01 02 03`
the range `[0, 2]` has three unread bytes, and `ReadInt32`, which reads
`data[3]` before the post-read check, ends in the read outside the buffer. -/
theorem ReadInt_short_window_not_asserted :
    (2147483644 : Int) ≤ 2147483647 ∧ (2147483647 : Int) - 2147483644 + 1 < 8 ∧
      ReadInt64 false (List.replicate 2147483652 0) ⟨2147483644, 2147483647⟩ =
        .ok (0, ⟨-2147483644, 2147483647⟩) ∧
      (0 : Int) ≤ 2 ∧ (2 : Int) - 0 + 1 < 4 ∧
      ReadInt32 false [1, 2, 3] ⟨0, 2⟩ = .error .outOfBounds ∧
      ReadInt32 true [1, 2, 3] ⟨0, 2⟩ = .error .outOfBounds := by
  refine ⟨by decide, by decide, ?_, by decide, by decide, by decide, by decide⟩
  exact ReadInt64_zeros_at 2147483652 ⟨2147483644, 2147483647⟩ (by decide) (by decide)
    (by decide) (by decide)

/-- C12: for every width `N` in `8, 4, 2, 1`, every buffer and every range with
`end - start >= N`, `ReadIntN` does not end in the fatal assertion; when it
returns, `range.start` is the old `start` plus exactly `N` and `range.end` is
unchanged; and it does return when the `N` bytes at `start` lie in the buffer. -/
theorem ReadInt_advances_by_width (charSigned : Bool) (buffer : List Byte)
    (range : ArrayRange) (hlo : -2147483648 ≤ range.start)
    (hint : range.end_ < 2147483648) :
    (range.end_ - range.start ≥ 8 →
      AdvancesBy 8 buffer range (ReadInt64 charSigned buffer range)) ∧
    (range.end_ - range.start ≥ 4 →
      AdvancesBy 4 buffer range (ReadInt32 charSigned buffer range)) ∧
    (range.end_ - range.start ≥ 2 →
      AdvancesBy 2 buffer range (ReadInt16 charSigned buffer range)) ∧
    (range.end_ - range.start ≥ 1 →
      AdvancesBy 1 buffer range (ReadInt8 charSigned buffer range)) := by
  refine ⟨?_, ?_, ?_, ?_⟩
  · intro h
    have hw : wrap32 (range.start + 8) = range.start + 8 :=
      wrap32_of_range (by omega) (by omega)
    refine ⟨ReadInt64_no_assert _ _ _ (by omega) (by rw [hw]; omega), ?_, ?_⟩
    · intro v r' hok
      rw [(ReadInt64_ok_range hok).2.2.1, hw]
    · intro h0 hb
      have := ReadInt64_ok_of charSigned buffer range (by omega) (by rw [hw]; omega) h0 hb
      rw [hw] at this
      exact this
  · intro h
    have hw : wrap32 (range.start + 4) = range.start + 4 :=
      wrap32_of_range (by omega) (by omega)
    refine ⟨ReadInt32_no_assert _ _ _ (by omega) (by rw [hw]; omega), ?_, ?_⟩
    · intro v r' hok
      rw [(ReadInt32_ok_range hok).2.2.1, hw]
    · intro h0 hb
      have := ReadInt32_ok_of charSigned buffer range (by omega) (by rw [hw]; omega) h0 hb
      rw [hw] at this
      exact this
  · intro h
    have hw : wrap32 (range.start + 2) = range.start + 2 :=
      wrap32_of_range (by omega) (by omega)
    refine ⟨ReadInt16_no_assert _ _ _ (by omega) (by rw [hw]; omega), ?_, ?_⟩
    · intro v r' hok
      rw [(ReadInt16_ok_range hok).2.2.1, hw]
    · intro h0 hb
      have := ReadInt16_ok_of charSigned buffer range (by omega) (by rw [hw]; omega) h0 hb
      rw [hw] at this
      exact this
  · intro h
    have hw : wrap32 (range.start + 1) = range.start + 1 :=
      wrap32_of_range (by omega) (by omega)
    refine ⟨ReadInt8_no_assert _ _ _ (by omega) (by rw [hw]; omega), ?_, ?_⟩
    · intro v r' hok
      rw [(ReadInt8_ok_range hok).2.2.1, hw]
    · intro h0 hb
      have := ReadInt8_ok_of charSigned buffer range (by omega) (by rw [hw]; omega) h0 hb
      rw [hw] at this
      exact this

/-- Witness of C12: `ReadInt16` over the range `[0, 2]` of the bytes `01 02 03`
returns `0x0102` and leaves the range `[2, 2]`. -/
theorem ReadInt_advances_by_width_witness :
    ReadInt16 false [1, 2, 3] ⟨0, 2⟩ = .ok (258, ⟨2, 2⟩) ∧
      AdvancesBy 2 [1, 2, 3] ⟨0, 2⟩ (ReadInt16 false [1, 2, 3] ⟨0, 2⟩) :=
  ⟨by decide,
    (ReadInt_advances_by_width false [1, 2, 3] ⟨0, 2⟩ (by decide) (by decide)).2.2.1
      (by decide)⟩

/-! ## The range invariant -/

theorem keepsRange_bind {α β : Type} {range : ArrayRange} {x : Except Fault β}
    {f : β → Except Fault (α × ArrayRange)} (hf : ∀ b, x = .ok b → KeepsRange range (f b)) :
    KeepsRange range (x >>= f) := by
  cases x with
  | error e =>
    intro a r' h
    simp [bind, Except.bind] at h
  | ok b => exact hf b rfl

theorem keepsRange_pure {α : Type} {range : ArrayRange} (a : α) (r : ArrayRange)
    (h1 : range.start ≤ r.start) (h2 : r.start ≤ r.end_) (h3 : r.end_ = range.end_) :
    KeepsRange range (pure (a, r) : Except Fault (α × ArrayRange)) := by
  intro a' r' h
  simp only [pure, Except.pure, Except.ok.injEq, Prod.mk.injEq] at h
  obtain ⟨_, hr⟩ := h
  subst hr
  exact ⟨h1, h2, h3⟩

theorem keepsRange_error {α : Type} {range : ArrayRange} (e : Fault) :
    KeepsRange range (.error e : Except Fault (α × ArrayRange)) := by
  intro a r' h
  simp at h

theorem readLineLoop_keepsRange (buffer : List Byte) (range : ArrayRange) (outStart : Int)
    (hse : range.start ≤ range.end_) : ∀ (fuel : Nat) (p : Int), range.start ≤ p →
      KeepsRange range (ReadLine.loop buffer range outStart range.end_ fuel p) := by
  intro fuel
  induction fuel with
  | zero =>
    intro p _
    exact keepsRange_error _
  | succ fuel ih =>
    intro p hp
    unfold ReadLine.loop
    split
    · rename_i hle
      apply keepsRange_bind
      intro c _
      split
      · split
        · rename_i hne
          exact keepsRange_pure _ _ (by show range.start ≤ p + 1; omega)
            (by show p + 1 ≤ range.end_; omega) rfl
        · exact keepsRange_pure _ _ hse (le_refl _) rfl
      · split
        · split
          · rename_i hne
            apply keepsRange_bind
            intro c2 _
            split
            · split
              · rename_i hne2
                exact keepsRange_pure _ _ (by show range.start ≤ p + 1 + 1; omega)
                  (by show p + 1 + 1 ≤ range.end_; omega) rfl
              · exact keepsRange_pure _ _ hse (le_refl _) rfl
            · exact keepsRange_pure _ _ (by show range.start ≤ p + 1; omega)
                (by show p + 1 ≤ range.end_; omega) rfl
          · exact keepsRange_pure _ _ hse (le_refl _) rfl
        · exact ih (p + 1) (by omega)
    · exact keepsRange_pure _ _ (le_refl _) hse rfl

theorem ReadLine_keepsRange (buffer : List Byte) (range : ArrayRange) :
    KeepsRange range (ReadLine buffer range) := by
  unfold ReadLine
  apply keepsRange_bind
  intro u hu
  exact readLineLoop_keepsRange buffer range _ (CheckRange_eq_ok.1 hu) _ _ (le_refl _)

theorem inner_found_range (buffer str : List Byte) (range : ArrayRange) :
    ∀ (fuel : Nat) (cmp pos : Int) (r' : ArrayRange), range.start ≤ cmp → cmp ≤ range.end_ →
      TryFindStringByLoop.inner buffer range str range.end_ fuel cmp pos = .ok (.found r') →
      range.start ≤ r'.start ∧ r'.start ≤ r'.end_ ∧ r'.end_ = range.end_ := by
  intro fuel
  induction fuel with
  | zero =>
    intro cmp pos r' _ _ h
    simp [TryFindStringByLoop.inner] at h
  | succ fuel ih =>
    intro cmp pos r' h1 h2 h
    unfold TryFindStringByLoop.inner at h
    simp only [bind_eq_ok] at h
    obtain ⟨c, _, h⟩ := h
    split at h
    · split at h
      · rename_i hne
        simp only [pure, Except.pure, Except.ok.injEq, InnerExit.found.injEq] at h
        subst h
        exact ⟨by show range.start ≤ cmp + 1; omega, by show cmp + 1 ≤ range.end_; omega, rfl⟩
      · simp only [pure, Except.pure, Except.ok.injEq, InnerExit.found.injEq] at h
        subst h
        exact ⟨by show range.start ≤ range.end_; omega, le_refl _, rfl⟩
    · split at h
      · simp [pure, Except.pure] at h
      · rename_i hov
        simp only [bind_eq_ok] at h
        obtain ⟨b, _, h⟩ := h
        split at h
        · simp [pure, Except.pure] at h
        · exact ih (cmp + 1) (pos + 1) r' (by omega) (by omega) h

theorem outer_keepsRange (buffer str : List Byte) (range : ArrayRange) (first : Byte)
    (hse : range.start ≤ range.end_) : ∀ (fuel : Nat) (p pos : Int), range.start ≤ p →
      KeepsRange range (TryFindStringByLoop.outer buffer range str range.end_ first fuel p pos) := by
  intro fuel
  induction fuel with
  | zero =>
    intro p pos _
    exact keepsRange_error _
  | succ fuel ih =>
    intro p pos hp
    unfold TryFindStringByLoop.outer
    split
    · rename_i hle
      apply keepsRange_bind
      intro b _
      split
      · apply keepsRange_bind
        intro res hres
        cases res with
        | found r =>
          have := inner_found_range buffer str range _ _ _ r hp hle hres
          exact keepsRange_pure _ _ this.1 this.2.1 this.2.2
        | notFound => exact keepsRange_pure _ _ (le_refl _) hse rfl
        | brk pos' => exact ih (p + 1) pos' (by omega)
      · exact ih (p + 1) pos (by omega)
    · exact keepsRange_pure _ _ (le_refl _) hse rfl

theorem TryFindStringByLoop_keepsRange (buffer str : List Byte) (range : ArrayRange) :
    KeepsRange range (TryFindStringByLoop buffer range str) := by
  unfold TryFindStringByLoop
  apply keepsRange_bind
  intro u hu
  apply keepsRange_bind
  intro first _
  exact outer_keepsRange buffer str range first (CheckRange_eq_ok.1 hu) _ _ _ (le_refl _)

theorem memcmpLoop_keepsRange (buffer str : List Byte) (range : ArrayRange) (len2 : Int)
    (hse : range.start ≤ range.end_) (hlen2 : 0 ≤ len2) : ∀ (fuel : Nat) (p len1 : Int),
      len1 ≤ range.end_ - range.start + 1 →
      KeepsRange range (TryFindStringByMemcmp.loop buffer range str len2 fuel p len1) := by
  intro fuel
  induction fuel with
  | zero =>
    intro p len1 _
    exact keepsRange_error _
  | succ fuel ih =>
    intro p len1 hl
    unfold TryFindStringByMemcmp.loop
    split
    · apply keepsRange_bind
      intro c _
      split
      · dsimp only
        split
        · exact keepsRange_pure _ _ hse (le_refl _) rfl
        · rename_i hgt
          exact keepsRange_pure _ _
            (by show range.start ≤ range.end_ - len1 + len2 + 1; omega)
            (by
              have : ¬ (range.end_ - len1 + len2 + 1 > range.end_) := hgt
              show range.end_ - len1 + len2 + 1 ≤ range.end_
              omega) rfl
      · exact ih (p + 1) (len1 - 1) (by omega)
    · exact keepsRange_pure _ _ (le_refl _) hse rfl

theorem TryFindStringByMemcmp_keepsRange (buffer str : List Byte) (range : ArrayRange) :
    KeepsRange range (TryFindStringByMemcmp buffer range str) := by
  unfold TryFindStringByMemcmp
  apply keepsRange_bind
  intro u hu
  exact memcmpLoop_keepsRange buffer str range _ (CheckRange_eq_ok.1 hu) (by omega) _ _ _
    (le_refl _)

theorem ReadInt_keepsRange_of {range r' : ArrayRange} {N : Int} {len : Nat} (hN : 0 ≤ N)
    (hbuf : len < 2147483648)
    (h : range.start ≤ range.end_ ∧ wrap32 (range.start + N) ≤ range.end_ ∧
      r' = ⟨wrap32 (range.start + N), range.end_⟩ ∧ 0 ≤ range.start ∧
      range.start + N ≤ (len : Int)) :
    range.start ≤ r'.start ∧ r'.start ≤ r'.end_ ∧ r'.end_ = range.end_ := by
  obtain ⟨_, h2, h3, h4, h5⟩ := h
  have hw : wrap32 (range.start + N) = range.start + N :=
    wrap32_of_range (by omega) (by omega)
  subst h3
  rw [hw] at h2
  exact ⟨by show range.start ≤ wrap32 (range.start + N); rw [hw]; omega,
    by show wrap32 (range.start + N) ≤ range.end_; rw [hw]; exact h2, rfl⟩

/-- On a buffer shorter than `2 ^ 31` bytes every returning call of the seven
operations keeps the range invariant: a reader that returns has read its bytes
inside the buffer, so its advance cannot pass `INT_MAX`. -/
theorem range_invariant_of_short_buffer (charSigned : Bool) (buffer str : List Byte)
    (range : ArrayRange) (hbuf : buffer.length < 2147483648) :
    KeepsRange range (ReadInt64 charSigned buffer range) ∧
    KeepsRange range (ReadInt32 charSigned buffer range) ∧
    KeepsRange range (ReadInt16 charSigned buffer range) ∧
    KeepsRange range (ReadInt8 charSigned buffer range) ∧
    KeepsRange range (ReadLine buffer range) ∧
    KeepsRange range (TryFindStringByLoop buffer range str) ∧
    KeepsRange range (TryFindStringByMemcmp buffer range str) := by
  refine ⟨?_, ?_, ?_, ?_, ReadLine_keepsRange buffer range,
    TryFindStringByLoop_keepsRange buffer str range,
    TryFindStringByMemcmp_keepsRange buffer str range⟩
  · intro v r' h
    exact ReadInt_keepsRange_of (by omega) hbuf (ReadInt64_ok_range h)
  · intro v r' h
    exact ReadInt_keepsRange_of (by omega) hbuf (ReadInt32_ok_range h)
  · intro v r' h
    exact ReadInt_keepsRange_of (by omega) hbuf (ReadInt16_ok_range h)
  · intro v r' h
    exact ReadInt_keepsRange_of (by omega) hbuf (ReadInt8_ok_range h)

/-- C13 (counterexample): on a buffer of `2147483652` zero bytes and the range
`[2147483644, 2147483647]`, which has `start <= end`, `ReadInt64` returns
without the fatal assertion and leaves `start = -2147483644`: the advance
`start += 8` passes `INT_MAX` and wraps, so `old start <= new start` fails. -/
theorem ReadInt64_wrapped_start_decreases :
    (2147483644 : Int) ≤ 2147483647 ∧
      ReadInt64 false (List.replicate 2147483652 0) ⟨2147483644, 2147483647⟩ =
        .ok (0, ⟨-2147483644, 2147483647⟩) ∧
      ¬ KeepsRange ⟨2147483644, 2147483647⟩
        (ReadInt64 false (List.replicate 2147483652 0) ⟨2147483644, 2147483647⟩) := by
  have h : ReadInt64 false (List.replicate 2147483652 0) ⟨2147483644, 2147483647⟩ =
      .ok (0, ⟨-2147483644, 2147483647⟩) :=
    ReadInt64_zeros_at 2147483652 ⟨2147483644, 2147483647⟩ (by decide) (by decide)
      (by decide) (by decide)
  refine ⟨by decide, h, ?_⟩
  intro hk
  have := (hk 0 ⟨-2147483644, 2147483647⟩ h).1
  revert this
  decide

theorem found_start_progress {range : ArrayRange} {q0 : Int} {m : Nat} (hm : 0 < m)
    (hq : range.start ≤ q0) :
    (range.start < (if q0 + (m : Int) ≤ range.end_ then q0 + (m : Int) else range.end_)) ↔
      range.start < range.end_ := by
  split <;> constructor <;> intro h <;> omega

/-- C19: for every buffer, range with `start <= end` inside the buffer and
non-empty pattern on which `TryFindString` (either variant) returns `true`, the
new `range.start` is strictly greater than the old `range.start` if and only if
`old start < end`; on a single-byte window (`start = end`) whose byte equals a
one-character pattern the call returns `true` and leaves the range unchanged, so
the repeated call returns `true` again. -/
theorem TryFindString_progress (buffer str : List Byte) (range : ArrayRange)
    (hne : str ≠ []) (hnul : ∀ c ∈ str, c ≠ 0) (h0 : 0 ≤ range.start)
    (hse : range.start ≤ range.end_) (hend : range.end_ < (buffer.length : Int)) :
    (∀ r', TryFindStringByLoop buffer range str = .ok (true, r') →
      (range.start < r'.start ↔ range.start < range.end_)) ∧
    (∀ r', TryFindStringByMemcmp buffer range str = .ok (true, r') →
      (range.start < r'.start ↔ range.start < range.end_)) ∧
    (∀ c, range.start = range.end_ → str = [c] → readAt buffer range.start = .ok c →
      TryFindStringByLoop buffer range str = .ok (true, range) ∧
      TryFindStringByMemcmp buffer range str = .ok (true, range)) := by
  have hm : 0 < str.length := List.length_pos.2 hne
  refine ⟨?_, ?_, ?_⟩
  · intro r' h
    by_cases hex : ∃ p, range.start ≤ p ∧ p + (str.length : Int) - 1 ≤ range.end_ ∧
        MatchAt buffer str p
    · obtain ⟨q0, hq, hfit, hmatch, _, hleast⟩ := exists_first_match hex
      rw [TryFindStringByLoop_found hne hnul h0 hse hend q0 hq hfit hmatch hleast] at h
      simp only [Except.ok.injEq, Prod.mk.injEq, true_and] at h
      subst h
      exact found_start_progress hm hq
    · have hno : ∀ q, range.start ≤ q → q + (str.length : Int) - 1 ≤ range.end_ →
          ¬ MatchAt buffer str q := fun q a b c => hex ⟨q, a, b, c⟩
      rw [TryFindStringByLoop_notFound hne hnul h0 hse hend hno] at h
      simp at h
  · intro r' h
    by_cases hex : ∃ p, range.start ≤ p ∧ p + (str.length : Int) - 1 ≤ range.end_ ∧
        MatchAt buffer str p
    · obtain ⟨q0, hq, hfit, hmatch, _, hleast⟩ := exists_first_match hex
      rw [TryFindStringByMemcmp_found hne hnul h0 hse hend q0 hq hfit hmatch hleast] at h
      simp only [Except.ok.injEq, Prod.mk.injEq, true_and] at h
      subst h
      exact found_start_progress hm hq
    · have hno : ∀ q, range.start ≤ q → q + (str.length : Int) - 1 ≤ range.end_ →
          ¬ MatchAt buffer str q := fun q a b c => hex ⟨q, a, b, c⟩
      rw [TryFindStringByMemcmp_notFound hne hnul h0 hse hend hno] at h
      simp at h
  · intro c he hs hb
    have hlen : str.length = 1 := by rw [hs]; rfl
    have hmatch : MatchAt buffer str range.start := by
      rw [matchAt_iff_agree hne h0]
      intro i hi
      have hi0 : i = 0 := by omega
      subst hi0
      rw [hs] at hi ⊢
      simp only [Nat.cast_zero, add_zero, hb]
      exact (readAt_cons_zero c [0]).symm
    have hfit : range.start + (str.length : Int) - 1 ≤ range.end_ := by
      rw [hlen]; omega
    have hleast : ∀ q, range.start ≤ q → q < range.start → ¬ MatchAt buffer str q := by
      intro q h1 h2
      omega
    have hres : (⟨if range.start + (str.length : Int) ≤ range.end_ then
        range.start + (str.length : Int) else range.end_, range.end_⟩ : ArrayRange) = range := by
      have : ¬ (range.start + (str.length : Int) ≤ range.end_) := by rw [hlen]; omega
      rw [if_neg this]
      cases range
      simp_all
    have h1 := TryFindStringByLoop_found hne hnul h0 hse hend range.start (le_refl _) hfit
      hmatch hleast
    have h2 := TryFindStringByMemcmp_found hne hnul h0 hse hend range.start (le_refl _) hfit
      hmatch hleast
    rw [hres] at h1 h2
    exact ⟨h1, h2⟩

set_option maxRecDepth 8000 in
/-- Witness of C19: in `foobarbaz` with the range `[0, 8]` the pattern `bar` moves
`start` from `0` to `6`; on the single-byte window `[8, 8]` the pattern `z` is
found and the range stays `[8, 8]`. -/
theorem TryFindString_progress_witness :
    TryFindStringByLoop (ascii "foobarbaz") ⟨0, 8⟩ (ascii "bar") = .ok (true, ⟨6, 8⟩) ∧
    ((0 : Int) < 6 ↔ (0 : Int) < 8) ∧
    TryFindStringByLoop (ascii "foobarbaz") ⟨8, 8⟩ (ascii "z") = .ok (true, ⟨8, 8⟩) ∧
    TryFindStringByMemcmp (ascii "foobarbaz") ⟨8, 8⟩ (ascii "z") = .ok (true, ⟨8, 8⟩) :=
  ⟨by decide,
    (TryFindString_progress (ascii "foobarbaz") (ascii "bar") ⟨0, 8⟩ (by decide) (by decide)
      (by decide) (by decide) (by decide)).1 ⟨6, 8⟩ (by decide),
    (TryFindString_progress (ascii "foobarbaz") (ascii "z") ⟨8, 8⟩ (by decide) (by decide)
      (by decide) (by decide) (by decide)).2.2 122 rfl (by decide) (by decide)⟩

/-! ## Reads stay inside the window -/

theorem window_inBounds {buffer buffer2 : List Byte} {range : ArrayRange}
    (h0 : 0 ≤ range.start) (hse : range.start ≤ range.end_)
    (hend : range.end_ < (buffer.length : Int))
    (hag : ∀ i, range.start ≤ i → i ≤ range.end_ → readAt buffer2 i = readAt buffer i) :
    range.end_ < (buffer2.length : Int) := by
  obtain ⟨d, hd⟩ := readAt_inBounds buffer range.end_ (by omega) hend
  have := hag range.end_ hse (le_refl _)
  rw [hd] at this
  exact (readAt_ok_bounds this).2

theorem isNewlineAt_congr {buffer buffer2 : List Byte} {i : Int}
    (h : readAt buffer2 i = readAt buffer i) :
    IsNewlineAt buffer2 i ↔ IsNewlineAt buffer i := by
  unfold IsNewlineAt
  rw [h]

/-- `ReadLine` depends on the bytes of the window only. -/
theorem ReadLine_window (buffer buffer2 : List Byte) (range : ArrayRange)
    (h0 : 0 ≤ range.start) (hse : range.start ≤ range.end_)
    (hend : range.end_ < (buffer.length : Int))
    (hag : ∀ i, range.start ≤ i → i ≤ range.end_ → readAt buffer2 i = readAt buffer i) :
    ReadLine buffer2 range = ReadLine buffer range := by
  have hend2 := window_inBounds h0 hse hend hag
  rcases ReadLine_cases h0 hse hend with ⟨hscan, h⟩ | ⟨s, hs1, hs2, hscan, h⟩
  · rw [h]
    exact ReadLine_no_terminator buffer2 range h0 hse hend2
      (fun i a b c => hscan i a b ((isNewlineAt_congr (hag i a b)).1 c))
  · have hscan2 : ∀ i, range.start ≤ i → i < s → ¬ IsNewlineAt buffer2 i :=
      fun i a b c => hscan i a b ((isNewlineAt_congr (hag i a (by omega))).1 c)
    have hs := hag s hs1 hs2
    rcases h with ⟨hb, h⟩ | ⟨hb, hlt, hn, h⟩ | ⟨hb, hlt, hn, h⟩ | ⟨hb, he, h⟩
    · rw [h]
      exact ReadLine_at_lf buffer2 range h0 hend2 s hs1 hs2 hscan2 (by rw [hs, hb])
    · rw [h]
      exact ReadLine_at_crlf buffer2 range h0 hend2 s hs1 hlt hscan2 (by rw [hs, hb])
        (by rw [hag (s + 1) (by omega) (by omega), hn])
    · rw [h]
      exact ReadLine_at_cr buffer2 range h0 hend2 s hs1 hlt hscan2 (by rw [hs, hb])
        (by rw [hag (s + 1) (by omega) (by omega)]; exact hn)
    · rw [h]
      subst he
      exact ReadLine_at_cr_end buffer2 range h0 hse hend2 hscan2 (by rw [hs, hb])

theorem matchAt_window {buffer buffer2 str : List Byte} {range : ArrayRange} (hne : str ≠ [])
    (h0 : 0 ≤ range.start)
    (hag : ∀ i, range.start ≤ i → i ≤ range.end_ → readAt buffer2 i = readAt buffer i)
    {q : Int} (hq : range.start ≤ q) (hfit : q + (str.length : Int) - 1 ≤ range.end_) :
    MatchAt buffer2 str q ↔ MatchAt buffer str q := by
  rw [matchAt_iff_agree hne (by omega), matchAt_iff_agree hne (by omega)]
  unfold Agree
  constructor
  · intro h i hi
    rw [← hag (q + (i : Int)) (by omega) (by omega)]
    exact h i hi
  · intro h i hi
    rw [hag (q + (i : Int)) (by omega) (by omega)]
    exact h i hi

/-- Both searches depend on the bytes of the window only. -/
theorem TryFindString_window (buffer buffer2 str : List Byte) (range : ArrayRange)
    (hne : str ≠ []) (hnul : ∀ c ∈ str, c ≠ 0) (h0 : 0 ≤ range.start)
    (hse : range.start ≤ range.end_) (hend : range.end_ < (buffer.length : Int))
    (hag : ∀ i, range.start ≤ i → i ≤ range.end_ → readAt buffer2 i = readAt buffer i) :
    TryFindStringByLoop buffer2 range str = TryFindStringByLoop buffer range str ∧
      TryFindStringByMemcmp buffer2 range str = TryFindStringByMemcmp buffer range str := by
  have hend2 := window_inBounds h0 hse hend hag
  by_cases hex : ∃ p, range.start ≤ p ∧ p + (str.length : Int) - 1 ≤ range.end_ ∧
      MatchAt buffer str p
  · obtain ⟨q0, hq, hfit, hmatch, _, hleast⟩ := exists_first_match hex
    have hmatch2 : MatchAt buffer2 str q0 := (matchAt_window hne h0 hag hq hfit).2 hmatch
    have hleast2 : ∀ q, range.start ≤ q → q < q0 → ¬ MatchAt buffer2 str q :=
      fun q a b c => hleast q a b ((matchAt_window hne h0 hag a (by omega)).1 c)
    rw [TryFindStringByLoop_found hne hnul h0 hse hend q0 hq hfit hmatch hleast,
      TryFindStringByMemcmp_found hne hnul h0 hse hend q0 hq hfit hmatch hleast,
      TryFindStringByLoop_found hne hnul h0 hse hend2 q0 hq hfit hmatch2 hleast2,
      TryFindStringByMemcmp_found hne hnul h0 hse hend2 q0 hq hfit hmatch2 hleast2]
    exact ⟨rfl, rfl⟩
  · have hno : ∀ q, range.start ≤ q → q + (str.length : Int) - 1 ≤ range.end_ →
        ¬ MatchAt buffer str q := fun q a b c => hex ⟨q, a, b, c⟩
    have hno2 : ∀ q, range.start ≤ q → q + (str.length : Int) - 1 ≤ range.end_ →
        ¬ MatchAt buffer2 str q :=
      fun q a b c => hno q a b ((matchAt_window hne h0 hag a b).1 c)
    rw [TryFindStringByLoop_notFound hne hnul h0 hse hend hno,
      TryFindStringByMemcmp_notFound hne hnul h0 hse hend hno,
      TryFindStringByLoop_notFound hne hnul h0 hse hend2 hno2,
      TryFindStringByMemcmp_notFound hne hnul h0 hse hend2 hno2]
    exact ⟨rfl, rfl⟩

theorem TryFindString_returns (buffer str : List Byte) (range : ArrayRange)
    (hne : str ≠ []) (hnul : ∀ c ∈ str, c ≠ 0) (h0 : 0 ≤ range.start)
    (hse : range.start ≤ range.end_) (hend : range.end_ < (buffer.length : Int)) :
    (∃ b r', TryFindStringByLoop buffer range str = .ok (b, r')) ∧
      ∃ b r', TryFindStringByMemcmp buffer range str = .ok (b, r') := by
  by_cases hex : ∃ p, range.start ≤ p ∧ p + (str.length : Int) - 1 ≤ range.end_ ∧
      MatchAt buffer str p
  · obtain ⟨q0, hq, hfit, hmatch, _, hleast⟩ := exists_first_match hex
    exact ⟨⟨_, _, TryFindStringByLoop_found hne hnul h0 hse hend q0 hq hfit hmatch hleast⟩,
      ⟨_, _, TryFindStringByMemcmp_found hne hnul h0 hse hend q0 hq hfit hmatch hleast⟩⟩
  · have hno : ∀ q, range.start ≤ q → q + (str.length : Int) - 1 ≤ range.end_ →
        ¬ MatchAt buffer str q := fun q a b c => hex ⟨q, a, b, c⟩
    exact ⟨⟨_, _, TryFindStringByLoop_notFound hne hnul h0 hse hend hno⟩,
      ⟨_, _, TryFindStringByMemcmp_notFound hne hnul h0 hse hend hno⟩⟩

/-- C17: for every buffer of length greater than `end`, every range with
`0 <= start <= end` and every non-empty NUL-terminated pattern, `ReadLine`,
`TryFindStringByLoop` and `TryFindStringByMemcmp` return, so the out-of-bounds
branch of the read is not reached; and they give the same result on every other
buffer that holds the same bytes at the indices `start .. end`, in particular on
the buffer cut off right after `end`, where a read beyond `end` would be out of
bounds: the buffer is read at indices `i` with `start <= i <= end` only. -/
theorem reads_stay_in_window (buffer str : List Byte) (range : ArrayRange)
    (hne : str ≠ []) (hnul : ∀ c ∈ str, c ≠ 0) (h0 : 0 ≤ range.start)
    (hse : range.start ≤ range.end_) (hend : range.end_ < (buffer.length : Int)) :
    (∃ out r', ReadLine buffer range = .ok (out, r')) ∧
    (∃ b r', TryFindStringByLoop buffer range str = .ok (b, r')) ∧
    (∃ b r', TryFindStringByMemcmp buffer range str = .ok (b, r')) ∧
    (∀ buffer2 : List Byte,
      (∀ i, range.start ≤ i → i ≤ range.end_ → readAt buffer2 i = readAt buffer i) →
      ReadLine buffer2 range = ReadLine buffer range ∧
      TryFindStringByLoop buffer2 range str = TryFindStringByLoop buffer range str ∧
      TryFindStringByMemcmp buffer2 range str = TryFindStringByMemcmp buffer range str) ∧
    (∀ i, range.start ≤ i → i ≤ range.end_ →
      readAt (buffer.take (range.end_ + 1).toNat) i = readAt buffer i) := by
  obtain ⟨out, r', hrl, _⟩ := ReadLine_outLine_start buffer range h0 hse hend
  obtain ⟨hl, hm⟩ := TryFindString_returns buffer str range hne hnul h0 hse hend
  refine ⟨⟨out, r', hrl⟩, hl, hm, ?_, ?_⟩
  · intro buffer2 hag
    obtain ⟨h1, h2⟩ := TryFindString_window buffer buffer2 str range hne hnul h0 hse hend hag
    exact ⟨ReadLine_window buffer buffer2 range h0 hse hend hag, h1, h2⟩
  · intro i hi1 hi2
    unfold readAt
    have hi0 : 0 ≤ i := by omega
    rw [if_pos hi0, if_pos hi0, List.getElem?_take_of_lt (by omega)]

set_option maxRecDepth 8000 in
/-- Witness of C17: the window `[3, 5]` (`bar`) of `foobarbaz`; the buffer
`xxxbar`, which differs before the window and ends with it, gives the same
results. -/
theorem reads_stay_in_window_witness :
    ReadLine (ascii "xxxbar") ⟨3, 5⟩ = ReadLine (ascii "foobarbaz") ⟨3, 5⟩ ∧
    TryFindStringByLoop (ascii "xxxbar") ⟨3, 5⟩ (ascii "ar") =
      TryFindStringByLoop (ascii "foobarbaz") ⟨3, 5⟩ (ascii "ar") ∧
    TryFindStringByMemcmp (ascii "xxxbar") ⟨3, 5⟩ (ascii "ar") =
      TryFindStringByMemcmp (ascii "foobarbaz") ⟨3, 5⟩ (ascii "ar") :=
  (reads_stay_in_window (ascii "foobarbaz") (ascii "ar") ⟨3, 5⟩ (by decide) (by decide)
    (by decide) (by decide) (by decide)).2.2.2.1 (ascii "xxxbar")
    (fun i h1 h2 => by
      have hi : i = 3 ∨ i = 4 ∨ i = 5 := by
        have h1' : (3 : Int) ≤ i := h1
        have h2' : i ≤ (5 : Int) := h2
        omega
      rcases hi with hi | hi | hi <;> subst hi <;> decide)

/-! ## Claim on the graphics flags -/

theorem SetUseVAO_flags (gl : AGLInfo) (g : AGraphics) (b : Bool) :
    (SetUseVAO gl g b).isUseVAO = (b && gl.isSupportVAO) ∧
      (SetUseVAO gl g b).isUseVBO = (b && gl.isSupportVAO) ∧
      (SetUseVAO gl g b).isUseMapBuffer = g.isUseMapBuffer := by
  unfold SetUseVAO
  split <;> simp_all

theorem SetUseMapBuffer_flags (gl : AGLInfo) (g : AGraphics) (b : Bool) :
    (SetUseMapBuffer gl g b).isUseVAO = g.isUseVAO ∧
      (SetUseMapBuffer gl g b).isUseVBO = g.isUseVBO := by
  unfold SetUseMapBuffer
  split <;> simp

theorem foldl_graphics_invariant (gl : AGLInfo) : ∀ (calls : List GraphicsCall) (g : AGraphics),
    (g.isUseVBO = g.isUseVAO ∧ (g.isUseVAO = true → gl.isSupportVAO = true)) →
    (calls.foldl (GraphicsCall.apply gl) g).isUseVBO =
        (calls.foldl (GraphicsCall.apply gl) g).isUseVAO ∧
      ((calls.foldl (GraphicsCall.apply gl) g).isUseVAO = true → gl.isSupportVAO = true) := by
  intro calls
  induction calls with
  | nil =>
    intro g h
    exact h
  | cons c rest ih =>
    intro g h
    rw [List.foldl_cons]
    apply ih
    cases c with
    | setUseVAO b =>
      obtain ⟨h1, h2, _⟩ := SetUseVAO_flags gl g b
      simp only [GraphicsCall.apply, h1, h2, Bool.and_eq_true, true_and]
      intro hb
      exact hb.2
    | setUseMapBuffer b =>
      obtain ⟨h1, h2⟩ := SetUseMapBuffer_flags gl g b
      simp only [GraphicsCall.apply, h1, h2]
      exact h

/-- C20: `Init` sets `isUseVBO`, `isUseVAO` and `isUseMapBuffer` to `false`; for
every boolean `b`, after `SetUseVAO(b)` both `isUseVAO` and `isUseVBO` equal
`b && isSupportVAO` and `isUseMapBuffer` is unchanged; hence `isUseVBO = isUseVAO`
holds in every state reached from `Init` through `SetUseVAO` and
`SetUseMapBuffer` calls, and `isUseVAO` is never `true` when the capability is
unsupported. -/
theorem graphics_flags (gl : AGLInfo) (g0 : AGraphics) :
    ((Init g0).isUseVBO = false ∧ (Init g0).isUseVAO = false ∧
      (Init g0).isUseMapBuffer = false) ∧
    (∀ (g : AGraphics) (b : Bool),
      (SetUseVAO gl g b).isUseVAO = (b && gl.isSupportVAO) ∧
      (SetUseVAO gl g b).isUseVBO = (b && gl.isSupportVAO) ∧
      (SetUseVAO gl g b).isUseMapBuffer = g.isUseMapBuffer) ∧
    (∀ calls : List GraphicsCall,
      (graphicsAfter gl g0 calls).isUseVBO = (graphicsAfter gl g0 calls).isUseVAO ∧
      ((graphicsAfter gl g0 calls).isUseVAO = true → gl.isSupportVAO = true)) := by
  refine ⟨⟨rfl, rfl, rfl⟩, SetUseVAO_flags gl, ?_⟩
  intro calls
  unfold graphicsAfter
  apply foldl_graphics_invariant
  simp [Init]

end Mojoc
